import Mathlib

/-!
Shallow embedding of src/librustdoc/passes.rs: the documentation-tree
model, the two stripping passes (strip_hidden, strip_private), the
comment-normalization pass collapse_docs, and the unindent algorithm,
together with theorems settling the specification claims.

Conventions of the embedding:
  * Rust strings are modelled as lists of characters; byte indices and
    character indices coincide in this model.
  * The mutable HashSet side-sets are modelled as lists of node ids
    threaded through the traversal; HashSet::insert is modelled as cons,
    and only membership in the list is ever consulted.
  * The generic fold framework (fold.rs, outside src/) is modelled from
    the spec, section 4.1: every item is a head of data plus a uniform
    ordered list of child items, and the default fold rebuilds an item
    with its children independently folded, dropping deleted children.
-/

namespace Rustdoc

/-- Node identity, modelling ast::DefId with a crate number and a node id. -/
structure DefId where
  krate : Nat
  node : Nat
deriving DecidableEq, Repr

/-- Modelled from the spec: ast_util::is_local (outside src/) tests whether a
DefId belongs to the local crate; the local crate is crate number 0. -/
def is_local (did : DefId) : Bool := did.krate == 0

/-- Visibility marker of an item, modelling ast::Visibility as far as the
passes consult it: explicitly public, or inherited (not explicitly public). -/
inductive Visibility where
  | Public
  | Inherited
deriving DecidableEq, Repr

/-- An attribute: either a name-value pair (a documentation-text fragment when
the name is "doc") or an opaque other attribute, per the spec data model. -/
inductive Attribute where
  | NameValue (name : String) (value : String)
  | OtherAttr (tag : Nat)
deriving DecidableEq, Repr

/-- A type reference as the passes consult it, modelling clean::Type: a
resolved path carrying the DefId of the referenced definition, or any other
type form, which the passes never inspect further. -/
inductive Ty where
  | ResolvedPath (did : DefId)
  | UnresolvedTy (tag : Nat)
deriving DecidableEq, Repr

/-- Struct-field payload, modelling clean::StructField: a typed field, or the
opaque hidden-field placeholder. -/
inductive SField where
  | TypedStructField (tag : Nat)
  | HiddenStructField
deriving DecidableEq, Repr

/-- The closed set of item kinds, modelling clean::ItemEnum.  Recursive member
items (module items, struct fields, enum variants, trait items, impl member
items) are not stored here but in the uniform child list of the item, per the
fold framework of the spec, section 4.1; the payload kept here is exactly the
non-recursive data the passes inspect. -/
inductive ItemEnum where
  | ModuleItem
  | StructItem
  | StructFieldItem (f : SField)
  | EnumItem
  | VariantItem (isStructVariant : Bool)
  | TraitItem
  | TyMethodItem
  | MethodItem
  | FunctionItem
  | StaticItem
  | ConstantItem
  | TypedefItem
  | MacroItem
  | ExternCrateItem
  | ImportItem
  | ImplItem (for_ : Ty) (trait_ : Option Ty)
  | DefaultImplItem
  | AssociatedConstItem
  | AssociatedTypeItem
  | ForeignFunctionItem
  | ForeignStaticItem
  | PrimitiveItem
deriving DecidableEq, Repr

/-- Head data of one item: identity, visibility, attributes, the
hidden-from-documentation marker, and the kind payload.  The field
isHiddenFromDoc models clean::Item::is_hidden_from_doc (outside src/),
that is, whether the item carries the doc(hidden) attribute. -/
structure ItemData where
  def_id : DefId
  visibility : Option Visibility
  attrs : List Attribute
  isHiddenFromDoc : Bool
  inner : ItemEnum
deriving DecidableEq, Repr

/-- One node of the documentation tree: head data plus the uniform ordered
list of child items (see the comment on ItemEnum). -/
inductive Item where
  | mk (data : ItemData) (children : List Item)

/-- Head data of an item. -/
def Item.data : Item → ItemData
  | .mk d _ => d

/-- Child list of an item. -/
def Item.children : Item → List Item
  | .mk _ cs => cs

/-- The crate: a root container optionally holding the root module item,
modelling clean::Crate as the passes consult it. -/
structure Crate where
  module : Option Item

/-- Modelled from the spec: clean::Item::doc_value (outside src/) returns the
value of the first documentation-text attribute of an item, if any. -/
def doc_value (attrs : List Attribute) : Option String :=
  attrs.findSome? fun a =>
    match a with
    | .NameValue n v => if n = "doc" then some v else none
    | .OtherAttr _ => none

/-- HashSet::insert modelled on lists: cons the id onto the set; only
membership is ever consulted downstream. -/
def insertId (n : Nat) (s : List Nat) : List Nat := n :: s

/-- HashSet::contains modelled on lists. -/
def memId (n : Nat) (s : List Nat) : Bool := s.contains n

/-! ## strip_hidden, first sub-pass

The local Stripper of strip_hidden: delete every item marked doc(hidden),
except a hidden struct field, which is replaced by the opaque hidden-field
placeholder; record the id of every hidden item in the side-set; recurse
into the children of every non-hidden item. -/

mutual

/-- fold_item of strip_hidden::Stripper, threading the stripped side-set. -/
def shFoldItem (stripped : List Nat) : Item → Option Item × List Nat
  | .mk d cs =>
    if d.isHiddenFromDoc then
      let stripped' := insertId d.def_id.node stripped
      match d.inner with
      | .StructFieldItem _ =>
          (some (.mk { d with inner := .StructFieldItem .HiddenStructField } cs), stripped')
      | _ => (none, stripped')
    else
      let (cs', s') := shFoldList stripped cs
      (some (.mk d cs'), s')
termination_by structural i => i

/-- The default fold applied to a child list by strip_hidden::Stripper:
fold each child in order, dropping deleted children. -/
def shFoldList (stripped : List Nat) : List Item → List Item × List Nat
  | [] => ([], stripped)
  | i :: is =>
    let (oi, s1) := shFoldItem stripped i
    let (is', s2) := shFoldList s1 is
    (match oi with | some x => x :: is' | none => is', s2)
termination_by structural l => l

end

/-! ## strip_hidden, second sub-pass

The local ImplStripper of strip_hidden: delete any impl whose target type is
a resolved path to a stripped id, or whose target type is a resolved path
and whose trait is a resolved path to a stripped id. -/

mutual

/-- fold_item of strip_hidden::ImplStripper; the side-set is read-only. -/
def shImplItem (stripped : List Nat) : Item → Option Item
  | .mk d cs =>
    match d.inner with
    | .ImplItem (.ResolvedPath did) trait_ =>
      if memId did.node stripped then none
      else
        match trait_ with
        | some (.ResolvedPath tdid) =>
          if memId tdid.node stripped then none
          else some (.mk d (shImplList stripped cs))
        | _ => some (.mk d (shImplList stripped cs))
    | _ => some (.mk d (shImplList stripped cs))
termination_by structural i => i

/-- The default fold applied to a child list by strip_hidden::ImplStripper. -/
def shImplList (stripped : List Nat) : List Item → List Item
  | [] => []
  | i :: is =>
    match shImplItem stripped i with
    | some x => x :: shImplList stripped is
    | none => shImplList stripped is
termination_by structural l => l

end

/-- The first sub-pass of strip_hidden run over the crate (fold_crate with an
empty side-set), returning the stripped crate and the side-set. -/
def shPass1 (c : Crate) : Option Item × List Nat :=
  match c.module with
  | none => (none, [])
  | some m => shFoldItem [] m

/-- strip_hidden: strip all doc(hidden) items, then strip any impls of
stripped types or traits, using the side-set of the first sub-pass. -/
def strip_hidden (c : Crate) : Crate :=
  let (m1, stripped) := shPass1 c
  { module := m1.bind (shImplItem stripped) }

/-! ## strip_private, phase 1

The Stripper of strip_private: the early per-kind retention decision, the
fastreturn short-circuit, and the post-recursion emptiness prunes.  The
exported-items oracle is passed as an explicit parameter (the source reads
it from a thread-local analysis key, outside src/). -/

/-- Outcome of the early per-kind match of Stripper::fold_item: delete the
item, replace a private struct field by the hidden-field placeholder, or
continue into the common tail of fold_item. -/
inductive EarlyOut where
  | Delete
  | ReplaceField
  | Continue
deriving DecidableEq, Repr

/-- The early per-kind match of Stripper::fold_item, arm by arm:
re-exportable kinds are deleted when local and unexported, and a local trait
is deleted also when not explicitly public; constants are deleted when local
and unexported; extern-crate references and imports are deleted unless
explicitly public; a struct field not explicitly public is replaced by the
hidden-field placeholder; impls whose target is a resolved path are deleted
when the target is local and unexported; all other kinds continue. -/
def privEarly (exported : List Nat) (d : ItemData) : EarlyOut :=
  match d.inner with
  | .TypedefItem | .StaticItem | .StructItem | .EnumItem | .TraitItem
  | .FunctionItem | .VariantItem _ | .MethodItem
  | .ForeignFunctionItem | .ForeignStaticItem =>
    if is_local d.def_id then
      if !memId d.def_id.node exported then .Delete
      else if d.inner = .TraitItem ∧ d.visibility ≠ some .Public then .Delete
      else .Continue
    else .Continue
  | .ConstantItem =>
    if is_local d.def_id && !memId d.def_id.node exported then .Delete else .Continue
  | .ExternCrateItem | .ImportItem =>
    if d.visibility ≠ some .Public then .Delete else .Continue
  | .StructFieldItem _ =>
    if d.visibility ≠ some .Public then .ReplaceField else .Continue
  | .ModuleItem => .Continue
  | .ImplItem (.ResolvedPath did) _ =>
    if is_local did && !memId did.node exported then .Delete else .Continue
  | .ImplItem _ _ => .Continue
  | .DefaultImplItem => .Continue
  | .MacroItem | .TyMethodItem => .Continue
  | .PrimitiveItem => .Continue
  | .AssociatedConstItem | .AssociatedTypeItem => .Continue

/-- The fastreturn predicate of Stripper::fold_item: traits, implementations
of traits, and struct variants are retained outright, without recursing into
their children. -/
def privFast (d : ItemData) : Bool :=
  match d.inner with
  | .TraitItem => true
  | .ImplItem _ (some _) => true
  | .VariantItem true => true
  | _ => false

/-- The post-recursion tail of Stripper::fold_item: an emptied module with no
documentation text and an emptied impl are deleted; anything else is kept
and its id recorded as retained. -/
def privPost (d : ItemData) (cs' : List Item) (r' : List Nat) : Option Item × List Nat :=
  match d.inner with
  | .ModuleItem =>
    if cs'.isEmpty && (doc_value d.attrs).isNone then (none, r')
    else (some (.mk d cs'), insertId d.def_id.node r')
  | .ImplItem _ _ =>
    if cs'.isEmpty then (none, r')
    else (some (.mk d cs'), insertId d.def_id.node r')
  | _ => (some (.mk d cs'), insertId d.def_id.node r')

mutual

/-- fold_item of the strip_private Stripper, threading the retained side-set:
early per-kind decision, then fastreturn or recursion into children followed
by the post-recursion emptiness prunes; every item returned (other than a
replaced private struct field) has its id recorded as retained. -/
def pStripItem (exported retained : List Nat) : Item → Option Item × List Nat
  | .mk d cs =>
    match privEarly exported d with
    | .Delete => (none, retained)
    | .ReplaceField =>
      (some (.mk { d with inner := .StructFieldItem .HiddenStructField } cs), retained)
    | .Continue =>
      if privFast d then
        (some (.mk d cs), insertId d.def_id.node retained)
      else
        let (cs', r') := pStripList exported retained cs
        privPost d cs' r'
termination_by structural i => i

/-- The default fold applied to a child list by the strip_private Stripper. -/
def pStripList (exported retained : List Nat) : List Item → List Item × List Nat
  | [] => ([], retained)
  | i :: is =>
    let (oi, r1) := pStripItem exported retained i
    let (is', r2) := pStripList exported r1 is
    (match oi with | some x => x :: is' | none => is', r2)
termination_by structural l => l

end

/-! ## strip_private, phase 2

The ImplStripper of strip_private: delete any impl whose implemented trait is
a resolved path to a local id not in the retained side-set. -/

mutual

/-- fold_item of the strip_private ImplStripper; the side-set is read-only. -/
def pImplItem (retained : List Nat) : Item → Option Item
  | .mk d cs =>
    match d.inner with
    | .ImplItem _ (some (.ResolvedPath did)) =>
      if is_local did && !memId did.node retained then none
      else some (.mk d (pImplList retained cs))
    | _ => some (.mk d (pImplList retained cs))
termination_by structural i => i

/-- The default fold applied to a child list by the strip_private
ImplStripper. -/
def pImplList (retained : List Nat) : List Item → List Item
  | [] => []
  | i :: is =>
    match pImplItem retained i with
    | some x => x :: pImplList retained is
    | none => pImplList retained is
termination_by structural l => l

end

/-- Phase 1 of strip_private run over the crate (fold_crate with an empty
retained side-set), returning the stripped crate and the retained set. -/
def pPhase1 (exported : List Nat) (c : Crate) : Option Item × List Nat :=
  match c.module with
  | none => (none, [])
  | some m => pStripItem exported [] m

/-- strip_private: strip all private items against the exported-items oracle,
then strip all impls of unretained local traits, using the retained side-set
of phase 1. -/
def strip_private (exported : List Nat) (c : Crate) : Crate :=
  let (m1, retained) := pPhase1 exported c
  { module := m1.bind (pImplItem retained) }

/-! ## collapse_docs -/

/-- The attribute rewrite of the collapse_docs Collapser on one item:
concatenate every documentation-text attribute value followed by a line
break into one string, keep the non-documentation attributes in order, and
append a single documentation attribute carrying the concatenation when it
is nonempty. -/
def collapseAttrs (attrs : List Attribute) : List Attribute :=
  let docstr := attrs.foldl
    (fun acc a =>
      match a with
      | .NameValue n s => if n = "doc" then acc ++ s ++ "\n" else acc
      | .OtherAttr _ => acc)
    ""
  let a := attrs.filter fun x =>
    match x with
    | .NameValue n _ => !(n = "doc")
    | .OtherAttr _ => true
  if docstr = "" then a else a ++ [.NameValue "doc" docstr]

mutual

/-- fold_item of the collapse_docs Collapser: rewrite the attributes, then
recurse into the children. -/
def collapseItem : Item → Option Item
  | .mk d cs => some (.mk { d with attrs := collapseAttrs d.attrs } (collapseList cs))
termination_by structural i => i

/-- The default fold applied to a child list by the collapse_docs
Collapser. -/
def collapseList : List Item → List Item
  | [] => []
  | i :: is =>
    match collapseItem i with
    | some x => x :: collapseList is
    | none => collapseList is
termination_by structural l => l

end

/-- collapse_docs run over the crate. -/
def collapse_docs (c : Crate) : Crate :=
  { module := c.module.bind collapseItem }

/-! ## unindent

Strings are lists of characters.  A run that reaches the assertion failure of
the source (a content line shorter than the computed minimum indentation) is
modelled as the result none; every successful run is some result. -/

/-- Whitespace test on one character, modelling char::is_whitespace as the
source meets it. -/
def isWS (c : Char) : Bool := c == ' ' || c == '\t' || c == '\n' || c == '\r'

/-- A blank line: every character is whitespace. -/
def isBlankL (l : List Char) : Bool := l.all isWS

/-- A content line: not every character is whitespace. -/
def contentL (l : List Char) : Bool := !isBlankL l

/-- The leading-space count of a line, as the closure in the source computes
it: the number of leading space characters (only the space character proper
counts). -/
def leadingSpaces (l : List Char) : Nat := (l.takeWhile (fun c => c == ' ')).length

/-- usize::MAX, the starting accumulator of the minimum-indentation fold. -/
def usizeMax : Nat := 2 ^ 64 - 1

/-- Splitting on the line-feed terminator, modelling str::lines: a line feed
ends a line, and a final line without a terminator still counts. -/
def linesTerm : List Char → List (List Char)
  | [] => []
  | c :: cs =>
    if c = '\n' then [] :: linesTerm cs
    else
      match linesTerm cs with
      | [] => [[c]]
      | l :: ls => (c :: l) :: ls

/-- Removal of one trailing carriage return from a line, the per-line step of
str::lines_any. -/
def stripCr (l : List Char) : List Char :=
  match l.getLast? with
  | some '\r' => l.dropLast
  | _ => l

/-- str::lines_any: the lines of str::lines, each with one trailing carriage
return removed. -/
def linesAny (s : List Char) : List (List Char) := (linesTerm s).map stripCr

/-- One step of the minimum-indentation fold of unindent, carrying the
saw_first_line and saw_second_line flags together with the accumulator:
the accumulator is discarded on the line directly after the first content
line when that line is itself content; blank lines leave the accumulator
unchanged; content lines fold in their leading-space count. -/
def minStep (st : Bool × Bool × Nat) (line : List Char) : Bool × Bool × Nat :=
  match st with
  | (sf, ss, m) =>
    let ignorePrev := sf && !ss && !(isBlankL line)
    let m1 := if ignorePrev then usizeMax else m
    let ss1 := if sf then true else ss
    if isBlankL line then (sf, ss1, m1)
    else (true, ss1, Nat.min m1 (leadingSpaces line))

/-- The minimum indentation computed by unindent over a line list. -/
def minIndentOf (lines : List (List Char)) : Nat :=
  (lines.foldl minStep (false, false, usizeMax)).2.2

/-- str::trim: leading and trailing whitespace removed. -/
def trimChars (l : List Char) : List Char :=
  ((l.dropWhile isWS).reverse.dropWhile isWS).reverse

/-- Leading whitespace removed only, the first-line treatment the claim
describes. -/
def trimLeftChars (l : List Char) : List Char := l.dropWhile isWS

/-- The per-line rewrite unindent applies to every line after the first:
blank lines pass through; a content line loses exactly minIndent leading
characters, and a content line shorter than minIndent fails the assertion. -/
def unindentRest (minIndent : Nat) : List (List Char) → Option (List (List Char))
  | [] => some []
  | l :: ls =>
    if isBlankL l then
      match unindentRest minIndent ls with
      | some ls' => some (l :: ls')
      | none => none
    else
      if minIndent ≤ l.length then
        match unindentRest minIndent ls with
        | some ls' => some (l.drop minIndent :: ls')
        | none => none
      else none

/-- Lines rejoined with line feeds, modelling join("\n"). -/
def joinLines : List (List Char) → List Char
  | [] => []
  | [l] => l
  | l :: ls => l ++ '\n' :: joinLines ls

/-- unindent from the source: split into lines, compute the minimum
indentation with the first-paragraph exception, then rebuild with the first
line trimmed, every later content line cut by the minimum, and blank lines
unchanged; an empty line list returns the input unchanged. -/
def unindent (s : List Char) : Option (List Char) :=
  let lines := linesAny s
  let minIndent := minIndentOf lines
  match lines with
  | [] => some s
  | l0 :: rest =>
    match unindentRest minIndent rest with
    | some rest' => some (joinLines (trimChars l0 :: rest'))
    | none => none

/-! ## Specification-side descriptions of unindent

These definitions follow the words of the claims rather than the source, for
comparison with the source function. -/

/-- The minimum leading-space count over the content lines of a list, with
the usize maximum as the empty minimum. -/
def minContent : List (List Char) → Nat
  | [] => usizeMax
  | l :: ls =>
    if isBlankL l then minContent ls
    else Nat.min (leadingSpaces l) (minContent ls)

/-- The minimum indentation as the claim describes it: the minimum
leading-space count over content lines, excluding the first content line
exactly when the line directly following it is itself a content line, and
including it when that following line is blank or absent. -/
def specMin : List (List Char) → Nat
  | [] => usizeMax
  | l :: ls =>
    if isBlankL l then specMin ls
    else
      match ls with
      | [] => Nat.min (leadingSpaces l) usizeMax
      | l2 :: _ =>
        if isBlankL l2 then Nat.min (leadingSpaces l) (minContent ls)
        else minContent ls

/-- unindent as the claim describes it, with the first line trimmed of its
leading whitespace only. -/
def unindentClaimed (s : List Char) : Option (List Char) :=
  let lines := linesAny s
  let minIndent := specMin lines
  match lines with
  | [] => some s
  | l0 :: rest =>
    match unindentRest minIndent rest with
    | some rest' => some (joinLines (trimLeftChars l0 :: rest'))
    | none => none

/-- unindent as the amended claim describes it, with the first line trimmed
of leading and trailing whitespace. -/
def unindentDescribed (s : List Char) : Option (List Char) :=
  let lines := linesAny s
  let minIndent := specMin lines
  match lines with
  | [] => some s
  | l0 :: rest =>
    match unindentRest minIndent rest with
    | some rest' => some (joinLines (trimChars l0 :: rest'))
    | none => none

/-! ## Observation predicates on trees

Decidable predicates used to state the claims about the stripping passes. -/

mutual

/-- Whether some node of the tree carries the given node id. -/
def containsNode (n : Nat) : Item → Bool
  | .mk d cs => d.def_id.node == n || containsNodeL n cs
termination_by structural i => i

/-- Whether some node of the forest carries the given node id. -/
def containsNodeL (n : Nat) : List Item → Bool
  | [] => false
  | i :: is => containsNode n i || containsNodeL n is
termination_by structural l => l

end

/-- Whether some node of the crate carries the given node id. -/
def crateContains (n : Nat) (c : Crate) : Bool :=
  match c.module with
  | none => false
  | some m => containsNode n m

/-- Referential consistency of one impl head against a set of present ids,
as the claim states it: a resolved local target id and a resolved local
trait id must both be present. -/
def implHeadRefs (ids : List Nat) (d : ItemData) : Bool :=
  match d.inner with
  | .ImplItem for_ trait_ =>
    (match for_ with
     | .ResolvedPath did => !is_local did || memId did.node ids
     | _ => true)
    && (match trait_ with
        | some (.ResolvedPath did) => !is_local did || memId did.node ids
        | _ => true)
  | _ => true

mutual

/-- Referential consistency of every impl node of a tree against a set of
present ids. -/
def implRefsOk (ids : List Nat) : Item → Bool
  | .mk d cs => implHeadRefs ids d && implRefsOkL ids cs
termination_by structural i => i

/-- Referential consistency of every impl node of a forest. -/
def implRefsOkL (ids : List Nat) : List Item → Bool
  | [] => true
  | i :: is => implRefsOk ids i && implRefsOkL ids is
termination_by structural l => l

end

mutual

/-- All node ids of a tree. -/
def allIds : Item → List Nat
  | .mk d cs => d.def_id.node :: allIdsL cs
termination_by structural i => i

/-- All node ids of a forest. -/
def allIdsL : List Item → List Nat
  | [] => []
  | i :: is => allIds i ++ allIdsL is
termination_by structural l => l

end

/-- The referential-consistency invariant of the claim, over a crate: every
impl node whose target type or trait is a resolved path to a local id
references an id carried by some node still present in the crate. -/
def crateRefsOk (c : Crate) : Bool :=
  match c.module with
  | none => true
  | some m => implRefsOk (allIds m) m

/-- Consistency of one impl head with the stripped side-set, mirroring the
guard of strip_hidden::ImplStripper: when the target type is a resolved
path, its id is not stripped, and a resolved trait id is not stripped
either. -/
def implHeadCleanH (stripped : List Nat) (d : ItemData) : Bool :=
  match d.inner with
  | .ImplItem (.ResolvedPath did) trait_ =>
    !memId did.node stripped
    && (match trait_ with
        | some (.ResolvedPath tdid) => !memId tdid.node stripped
        | _ => true)
  | _ => true

mutual

/-- Consistency of every impl node of a tree with the stripped side-set. -/
def implCleanH (stripped : List Nat) : Item → Bool
  | .mk d cs => implHeadCleanH stripped d && implCleanHL stripped cs
termination_by structural i => i

/-- Consistency of every impl node of a forest with the stripped side-set. -/
def implCleanHL (stripped : List Nat) : List Item → Bool
  | [] => true
  | i :: is => implCleanH stripped i && implCleanHL stripped is
termination_by structural l => l

end

/-- Consistency of one impl head with the retained side-set, mirroring the
guard of the strip_private ImplStripper: a resolved local trait id is
retained. -/
def implHeadCleanP (retained : List Nat) (d : ItemData) : Bool :=
  match d.inner with
  | .ImplItem _ (some (.ResolvedPath did)) => !is_local did || memId did.node retained
  | _ => true

mutual

/-- Consistency of every impl node of a tree with the retained side-set. -/
def implCleanP (retained : List Nat) : Item → Bool
  | .mk d cs => implHeadCleanP retained d && implCleanPL retained cs
termination_by structural i => i

/-- Consistency of every impl node of a forest with the retained side-set. -/
def implCleanPL (retained : List Nat) : List Item → Bool
  | [] => true
  | i :: is => implCleanP retained i && implCleanPL retained is
termination_by structural l => l

end

mutual

/-- The ids the first sub-pass of strip_hidden records when it traverses the
tree: the id of a hidden node (whose children it does not enter), and the
ids collected below a non-hidden node. -/
def hIds : Item → List Nat
  | .mk d cs => if d.isHiddenFromDoc then [d.def_id.node] else hIdsL cs
termination_by structural i => i

/-- The ids the first sub-pass of strip_hidden records over a forest. -/
def hIdsL : List Item → List Nat
  | [] => []
  | i :: is => hIds i ++ hIdsL is
termination_by structural l => l

end

mutual

/-- A tree the first sub-pass of strip_hidden maps to itself: every hidden
node it visits is already the hidden-field placeholder. -/
def p1Fixed : Item → Bool
  | .mk d cs =>
    if d.isHiddenFromDoc then d.inner == .StructFieldItem .HiddenStructField
    else p1FixedL cs
termination_by structural i => i

/-- A forest the first sub-pass of strip_hidden maps to itself. -/
def p1FixedL : List Item → Bool
  | [] => true
  | i :: is => p1Fixed i && p1FixedL is
termination_by structural l => l

end

/-- Whether an item kind is a module or an implementation. -/
def isModImplKind : ItemEnum → Bool
  | .ModuleItem => true
  | .ImplItem _ _ => true
  | _ => false

mutual

/-- Well-formedness used by the emptiness-pruning claim: module and
implementation nodes occur only as children of module nodes. -/
def wfItem : Item → Bool
  | .mk d cs =>
    (d.inner == .ModuleItem || cs.all fun c => !isModImplKind c.data.inner) && wfList cs
termination_by structural i => i

/-- Well-formedness of a forest. -/
def wfList : List Item → Bool
  | [] => true
  | i :: is => wfItem i && wfList is
termination_by structural l => l

end

mutual

/-- A tree containing no module and no implementation node at all. -/
def noMI : Item → Bool
  | .mk d cs => !isModImplKind d.inner && noMIL cs
termination_by structural i => i

/-- A forest containing no module and no implementation node. -/
def noMIL : List Item → Bool
  | [] => true
  | i :: is => noMI i && noMIL is
termination_by structural l => l

end

/-- The emptiness condition of the claim on one node: a module has a child
or documentation text, and an implementation has a member item. -/
def emptyHeadOk (d : ItemData) (cs : List Item) : Bool :=
  match d.inner with
  | .ModuleItem => !(cs.isEmpty && (doc_value d.attrs).isNone)
  | .ImplItem _ _ => !cs.isEmpty
  | _ => true

mutual

/-- The emptiness condition of the claim over a whole tree. -/
def emptinessOk : Item → Bool
  | .mk d cs => emptyHeadOk d cs && emptinessOkL cs
termination_by structural i => i

/-- The emptiness condition of the claim over a forest. -/
def emptinessOkL : List Item → Bool
  | [] => true
  | i :: is => emptinessOk i && emptinessOkL is
termination_by structural l => l

end

/-- The emptiness condition over a crate. -/
def crateEmptinessOk (c : Crate) : Bool :=
  match c.module with
  | none => true
  | some m => emptinessOk m

/-- The amended emptiness condition on one node: a module has a child or
documentation text, and an implementation that does not implement a trait
has a member item. -/
def emptyHeadOkA (d : ItemData) (cs : List Item) : Bool :=
  match d.inner with
  | .ModuleItem => !(cs.isEmpty && (doc_value d.attrs).isNone)
  | .ImplItem _ none => !cs.isEmpty
  | _ => true

mutual

/-- The amended emptiness condition over a whole tree. -/
def emptinessOkA : Item → Bool
  | .mk d cs => emptyHeadOkA d cs && emptinessOkAL cs
termination_by structural i => i

/-- The amended emptiness condition over a forest. -/
def emptinessOkAL : List Item → Bool
  | [] => true
  | i :: is => emptinessOkA i && emptinessOkAL is
termination_by structural l => l

end

/-! ## Derived definitions: claim-level predicates and concrete crates
used in the claim statements and counterexamples -/

/-- The concrete crate of the claim-C2 counterexample: a crate module holding
one locally-defined trait, not explicitly public, whose id 5 is in the
export oracle. -/
def c2Crate : Crate :=
  { module := some (.mk ⟨⟨0, 0⟩, some .Public, [.NameValue "doc" "m"], false, .ModuleItem⟩
      [.mk ⟨⟨0, 5⟩, some .Inherited, [], false, .TraitItem⟩ []]) }

/-- Whether an attribute is a documentation-text attribute. -/
def isDocAttr : Attribute → Bool
  | .NameValue n _ => n = "doc"
  | .OtherAttr _ => false

/-- The documentation-text values of an attribute list, in order. -/
def docStrings (attrs : List Attribute) : List String :=
  attrs.filterMap fun a =>
    match a with
    | .NameValue n v => if n = "doc" then some v else none
    | .OtherAttr _ => none

/-- Fragments joined with a line break appended after every fragment. -/
def docConcat : List String → String
  | [] => ""
  | s :: l => s ++ "\n" ++ docConcat l

/-- The concrete crate of the claim-C5 counterexample: one item carrying the
two documentation fragments a and b. -/
def c5Crate : Crate :=
  { module := some (.mk ⟨⟨0, 0⟩, some .Public,
      [.NameValue "doc" "a", .NameValue "doc" "b"], false, .ModuleItem⟩ []) }

/-- Whether the first line of the split input is a content line (an input
with no lines at all also counts). -/
def firstLineContent (s : List Char) : Bool :=
  match linesAny s with
  | [] => true
  | l :: _ => !isBlankL l

/-- The side-set strip_hidden accumulates (the ids of the hidden items its
first sub-pass removed or replaced). -/
def stripHiddenSet (c : Crate) : List Nat := (shPass1 c).2

/-- The retained side-set of strip_private phase 1. -/
def stripPrivateRetained (exported : List Nat) (c : Crate) : List Nat :=
  (pPhase1 exported c).2

/-- Side-set consistency of every impl node over a crate, for strip_hidden. -/
def crateCleanH (stripped : List Nat) (c : Crate) : Bool :=
  match c.module with
  | none => true
  | some m => implCleanH stripped m

/-- Side-set consistency of every impl node over a crate, for
strip_private. -/
def crateCleanP (retained : List Nat) (c : Crate) : Bool :=
  match c.module with
  | none => true
  | some m => implCleanP retained m

/-- The concrete crate of the claim-C1 counterexample: a hidden local trait
with id 1, and an impl whose target type is not a resolved path and whose
trait is the resolved local id 1. -/
def c1Crate : Crate :=
  { module := some (.mk ⟨⟨0, 0⟩, some .Public, [], false, .ModuleItem⟩
      [.mk ⟨⟨0, 1⟩, some .Public, [], true, .TraitItem⟩ [],
       .mk ⟨⟨0, 2⟩, none, [], false,
         .ImplItem (.UnresolvedTy 0) (some (.ResolvedPath ⟨0, 1⟩))⟩ []]) }

/-- Well-formedness of a crate: module and implementation nodes occur only as
children of modules. -/
def crateWf (c : Crate) : Bool :=
  match c.module with
  | none => true
  | some m => wfItem m

/-- The amended emptiness condition over a crate. -/
def crateEmptinessOkA (c : Crate) : Bool :=
  match c.module with
  | none => true
  | some m => emptinessOkA m

/-- The concrete crate of the claim-C6 counterexample: a module holding an
inner module whose only child is an impl of an unretained local trait, and a
memberless impl of a non-local trait. -/
def c6Crate : Crate :=
  { module := some (.mk ⟨⟨0, 0⟩, some .Public, [], false, .ModuleItem⟩
      [.mk ⟨⟨0, 1⟩, some .Public, [], false, .ModuleItem⟩
         [.mk ⟨⟨0, 3⟩, none, [], false,
            .ImplItem (.UnresolvedTy 0) (some (.ResolvedPath ⟨0, 9⟩))⟩ []],
       .mk ⟨⟨0, 2⟩, none, [], false,
         .ImplItem (.UnresolvedTy 1) (some (.ResolvedPath ⟨1, 5⟩))⟩ []]) }

/-! ## Claims C2 and C3: the trait-visibility rule of strip_private phase 1 -/

/-- C3: in phase 1 of strip_private, a locally-defined trait item that is not
explicitly public is deleted, even when its id is in the export oracle. -/
theorem private_trait_deleted (exported retained : List Nat) (d : ItemData)
    (cs : List Item) (hk : d.inner = .TraitItem) (hl : is_local d.def_id = true)
    (hv : d.visibility ≠ some .Public) :
    (pStripItem exported retained (.mk d cs)).1 = none := by
  have hearly : privEarly exported d = .Delete := by
    unfold privEarly
    rw [hk]
    simp [hl, hv]
  unfold pStripItem
  rw [hearly]

/-- Witness for private_trait_deleted at a concrete exported private trait. -/
theorem private_trait_deleted_wit :
    (⟨⟨0, 7⟩, some .Inherited, [], false, .TraitItem⟩ : ItemData).inner = .TraitItem
    ∧ (pStripItem [7] [] (.mk ⟨⟨0, 7⟩, some .Inherited, [], false, .TraitItem⟩ [])).1
        = none :=
  ⟨rfl, private_trait_deleted [7] [] _ [] rfl rfl (by decide)⟩

/-- Counterexample to C2: the exported but not explicitly public trait of
c2Crate is deleted by strip_private, not retained. -/
theorem exported_private_trait_not_retained :
    crateContains 5 c2Crate = true
    ∧ crateContains 5 (strip_private [5, 0] c2Crate) = false := by
  constructor
  · rfl
  · rfl

/-- C2 amended: a locally-defined trait item that is explicitly public and
whose id is in the export oracle is retained unchanged by phase 1 of
strip_private, and its id is recorded in the retained side-set. -/
theorem exported_public_trait_retained (exported retained : List Nat)
    (d : ItemData) (cs : List Item) (hk : d.inner = .TraitItem)
    (hl : is_local d.def_id = true) (hv : d.visibility = some .Public)
    (he : memId d.def_id.node exported = true) :
    pStripItem exported retained (.mk d cs) =
      (some (.mk d cs), insertId d.def_id.node retained) := by
  have hearly : privEarly exported d = .Continue := by
    unfold privEarly
    rw [hk]
    simp [hl, he, hv]
  have hfast : privFast d = true := by
    unfold privFast
    rw [hk]
  unfold pStripItem
  rw [hearly]
  simp [hfast]

/-- Witness for exported_public_trait_retained at a concrete public exported
trait. -/
theorem exported_public_trait_retained_wit :
    memId 5 [5] = true
    ∧ pStripItem [5] [] (.mk ⟨⟨0, 5⟩, some .Public, [], false, .TraitItem⟩ []) =
        (some (.mk ⟨⟨0, 5⟩, some .Public, [], false, .TraitItem⟩ []), insertId 5 []) :=
  ⟨by decide, exported_public_trait_retained [5] [] _ [] rfl rfl rfl (by decide)⟩

/-! ## Claim C8: the first sub-pass of strip_hidden, item by item -/

/-- C8: the first sub-pass of strip_hidden deletes every hidden item except a
hidden struct field, which is replaced by the hidden-field placeholder with
the same identity, visibility and attributes; the id of every hidden item is
recorded in the side-set; a non-hidden item is kept with its children
recursively processed. -/
theorem strip_hidden_item_rule (stripped : List Nat) (d : ItemData) (cs : List Item) :
    (d.isHiddenFromDoc = true →
      memId d.def_id.node (shFoldItem stripped (.mk d cs)).2 = true)
    ∧ (d.isHiddenFromDoc = true → ∀ f, d.inner = .StructFieldItem f →
      (shFoldItem stripped (.mk d cs)).1 =
        some (.mk { d with inner := .StructFieldItem .HiddenStructField } cs))
    ∧ (d.isHiddenFromDoc = true → (∀ f, d.inner ≠ .StructFieldItem f) →
      (shFoldItem stripped (.mk d cs)).1 = none)
    ∧ (d.isHiddenFromDoc = false →
      (shFoldItem stripped (.mk d cs)).1 = some (.mk d (shFoldList stripped cs).1)) := by
  refine ⟨?_, ?_, ?_, ?_⟩
  · intro h
    unfold shFoldItem
    rw [h]
    cases hi : d.inner <;> simp [insertId, memId]
  · intro h f hf
    unfold shFoldItem
    rw [h, hf]
    simp
  · intro h hnf
    unfold shFoldItem
    rw [h]
    cases hi : d.inner
    case StructFieldItem f => exact absurd hi (hnf f)
    all_goals simp
  · intro h
    unfold shFoldItem
    rw [h]
    simp

/-- Witness for strip_hidden_item_rule at a concrete hidden struct field:
the field is replaced by the placeholder and its id 3 is recorded. -/
theorem strip_hidden_item_rule_wit :
    (⟨⟨0, 3⟩, some .Public, [.OtherAttr 1], true,
        .StructFieldItem (.TypedStructField 0)⟩ : ItemData).isHiddenFromDoc = true
    ∧ (shFoldItem []
        (.mk ⟨⟨0, 3⟩, some .Public, [.OtherAttr 1], true,
          .StructFieldItem (.TypedStructField 0)⟩ [])).1 =
        some (.mk ⟨⟨0, 3⟩, some .Public, [.OtherAttr 1], true,
          .StructFieldItem .HiddenStructField⟩ [])
    ∧ memId 3 (shFoldItem []
        (.mk ⟨⟨0, 3⟩, some .Public, [.OtherAttr 1], true,
          .StructFieldItem (.TypedStructField 0)⟩ [])).2 = true :=
  ⟨rfl,
   (strip_hidden_item_rule [] _ []).2.1 rfl (.TypedStructField 0) rfl,
   (strip_hidden_item_rule [] _ []).1 rfl⟩

/-! ## Claim C5: collapse_docs -/

/-- Appending strings concatenates their character data. -/
theorem strData_append (a b : String) : (a ++ b).data = a.data ++ b.data := rfl

/-- The concatenation of at least one fragment is never the empty string. -/
theorem docConcat_ne_empty (s : String) (l : List String) : docConcat (s :: l) ≠ "" := by
  intro h
  have h2 := congrArg String.data h
  rw [docConcat] at h2
  simp [strData_append] at h2

/-- The documentation accumulator loop of collapse_docs computes the
fragment concatenation, for any starting accumulator. -/
theorem collapse_fold_eq (attrs : List Attribute) : ∀ acc : String,
    attrs.foldl
      (fun acc a =>
        match a with
        | .NameValue n s => if n = "doc" then acc ++ s ++ "\n" else acc
        | .OtherAttr _ => acc)
      acc = acc ++ docConcat (docStrings attrs) := by
  induction attrs with
  | nil => intro acc; simp [docStrings, docConcat, String.append_empty]
  | cons a attrs ih =>
    intro acc
    cases a with
    | NameValue n v =>
      by_cases hn : n = "doc"
      · simp only [List.foldl_cons, hn, if_pos rfl, ih, docStrings, List.filterMap_cons]
        simp [docConcat, String.append_assoc, docStrings]
      · simp only [List.foldl_cons, if_neg hn, ih, docStrings, List.filterMap_cons, hn]
        simp [hn]
    | OtherAttr t =>
      simp only [List.foldl_cons, ih, docStrings, List.filterMap_cons]

/-- C5 amended: collapse_docs rewrites an attribute list to the non-doc
attributes in order, followed by one documentation attribute holding every
fragment in order with a line break appended after each fragment (so the
fragment list with values a and b collapses to the single value of a, a line
break, b, and a final line break), or by no documentation attribute when
there are no fragments. -/
theorem collapse_docs_merge (attrs : List Attribute) :
    collapseAttrs attrs =
      attrs.filter (fun a => !isDocAttr a)
        ++ (if docStrings attrs = [] then []
            else [.NameValue "doc" (docConcat (docStrings attrs))]) := by
  unfold collapseAttrs
  rw [collapse_fold_eq attrs ""]
  have hfilter : (attrs.filter fun x =>
      match x with
      | .NameValue n _ => !(n = "doc")
      | .OtherAttr _ => true) = attrs.filter (fun a => !isDocAttr a) := by
    apply List.filter_congr
    intro x _
    cases x <;> simp [isDocAttr]
  rw [hfilter]
  cases hd : docStrings attrs with
  | nil => simp [docConcat]
  | cons s l =>
    have h1 : ("" : String) ++ docConcat (s :: l) = docConcat (s :: l) := rfl
    simp only [h1]
    rw [if_neg (docConcat_ne_empty s l)]
    simp

/-- Counterexample to C5: collapsing the fragments a and b yields the single
fragment of a, a line break, b, and a trailing line break, which is not the
claimed fragment without the trailing break. -/
theorem collapse_keeps_trailing_break :
    collapse_docs c5Crate =
      { module := some (.mk ⟨⟨0, 0⟩, some .Public,
          [.NameValue "doc" "a\nb\n"], false, .ModuleItem⟩ []) }
    ∧ ("a\nb\n" : String) ≠ "a\nb" := by
  constructor
  · rfl
  · decide

/-! ## Claim C10: a single trailing line break does not survive unindent -/

/-- A nonempty string splits into at least one line. -/
theorem linesTerm_ne_nil (s : List Char) (h : s ≠ []) : linesTerm s ≠ [] := by
  cases s with
  | nil => exact absurd rfl h
  | cons c cs =>
    unfold linesTerm
    split
    · simp
    · split <;> simp

/-- The line split of a string starting with a line feed. -/
theorem linesTerm_cons_nl (cs : List Char) :
    linesTerm ('\n' :: cs) = [] :: linesTerm cs := by
  rw [linesTerm]
  simp

/-- The line split of a string starting with a character other than a line
feed. -/
theorem linesTerm_cons (c : Char) (cs : List Char) (hc : c ≠ '\n') :
    linesTerm (c :: cs) =
      match linesTerm cs with
      | [] => [[c]]
      | l :: ls => (c :: l) :: ls := by
  rw [linesTerm]
  simp [hc]

/-- Appending a line feed to a string that is nonempty and does not already
end in a line feed leaves its line split unchanged. -/
theorem linesTerm_append_nl (s : List Char) (h0 : s ≠ [])
    (h1 : s.getLast? ≠ some '\n') : linesTerm (s ++ ['\n']) = linesTerm s := by
  induction s with
  | nil => exact absurd rfl h0
  | cons c cs ih =>
    cases cs with
    | nil =>
      have hc : c ≠ '\n' := by simpa using h1
      simp [linesTerm, hc]
    | cons c2 cs2 =>
      have hl2 : (c2 :: cs2).getLast? ≠ some '\n' := by
        simpa [List.getLast?_cons_cons] using h1
      have ihh := ih (by simp) hl2
      by_cases hc : c = '\n'
      · subst hc
        rw [show ('\n' :: c2 :: cs2) ++ ['\n'] = '\n' :: (c2 :: cs2 ++ ['\n']) from rfl]
        rw [linesTerm_cons_nl, linesTerm_cons_nl, ihh]
      · rw [show (c :: c2 :: cs2) ++ ['\n'] = c :: (c2 :: cs2 ++ ['\n']) from rfl]
        rw [linesTerm_cons _ _ hc, linesTerm_cons _ _ hc, ihh]

/-- C10: for a nonempty string not ending in a line feed, appending one
trailing line feed does not change the result of unindent. -/
theorem unindent_trailing_newline (s : List Char) (h0 : s ≠ [])
    (h1 : s.getLast? ≠ some '\n') : unindent (s ++ ['\n']) = unindent s := by
  have hl : linesAny (s ++ ['\n']) = linesAny s := by
    unfold linesAny
    rw [linesTerm_append_nl s h0 h1]
  unfold unindent
  rw [hl]
  cases hcase : linesAny s with
  | nil =>
    exfalso
    have hne := linesTerm_ne_nil s h0
    unfold linesAny at hcase
    exact hne (List.map_eq_nil_iff.mp hcase)
  | cons l0 rest => rfl

/-- Witness for unindent_trailing_newline at the concrete input of four
spaces and the letter a: the trailing line feed is dropped. -/
theorem unindent_trailing_newline_wit :
    unindent ("    a".toList ++ ['\n']) = unindent "    a".toList
    ∧ unindent "    a".toList = some "a".toList :=
  ⟨unindent_trailing_newline _ (by decide) (by decide), by decide⟩


/-! ## Claims C4 and C9: the minimum-indentation computation of unindent -/

/-- The content-line minimum never exceeds the usize maximum sentinel. -/
theorem minContent_le_max (ls : List (List Char)) : minContent ls ≤ usizeMax := by
  induction ls with
  | nil => exact Nat.le_refl _
  | cons l ls ih =>
    unfold minContent
    split
    · exact ih
    · exact Nat.le_trans (Nat.min_le_right _ _) ih

/-- The content-line minimum of a list headed by a blank line. -/
theorem minContent_blank (l : List Char) (ls : List (List Char))
    (hb : isBlankL l = true) : minContent (l :: ls) = minContent ls := by
  rw [minContent, hb]
  simp

/-- The content-line minimum of a list headed by a content line. -/
theorem minContent_content (l : List Char) (ls : List (List Char))
    (hb : isBlankL l = false) :
    minContent (l :: ls) = Nat.min (leadingSpaces l) (minContent ls) := by
  rw [minContent, hb]
  simp

/-- The content-line minimum bounds the leading spaces of every content
line. -/
theorem minContent_le (ls : List (List Char)) (l : List Char) (hmem : l ∈ ls)
    (hc : isBlankL l = false) : minContent ls ≤ leadingSpaces l := by
  induction ls with
  | nil => exact absurd hmem (List.not_mem_nil l)
  | cons a as ih =>
    rcases List.mem_cons.mp hmem with h | h
    · subst h
      rw [minContent_content _ _ hc]
      exact Nat.min_le_left _ _
    · by_cases hb : isBlankL a = true
      · rw [minContent_blank _ _ hb]
        exact ih h
      · rw [minContent_content _ _ (by simpa using hb)]
        exact Nat.le_trans (Nat.min_le_right _ _) (ih h)


/-- The defining equation of the minimum on naturals. -/
theorem natMin_def (a b : Nat) : Nat.min a b = if a ≤ b then a else b := rfl

/-- The minimum on naturals equals its left argument when that is smaller. -/
theorem natMin_left {a b : Nat} (h : a ≤ b) : Nat.min a b = a := by
  rw [natMin_def]
  simp [h]

/-- The minimum on naturals equals its right argument when that is smaller. -/
theorem natMin_right {a b : Nat} (h : b ≤ a) : Nat.min a b = b := by
  rw [natMin_def]
  split <;> omega

/-- The minimum on naturals is below its left argument. -/
theorem natMin_le_left (a b : Nat) : Nat.min a b ≤ a := by
  rw [natMin_def]
  split <;> omega

/-- The minimum on naturals is below its right argument. -/
theorem natMin_le_right (a b : Nat) : Nat.min a b ≤ b := by
  rw [natMin_def]
  split <;> omega

/-- Commutativity of the minimum on naturals. -/
theorem natMin_comm (a b : Nat) : Nat.min a b = Nat.min b a := by
  rw [natMin_def, natMin_def]
  split <;> split <;> omega

/-- Associativity of the minimum on naturals. -/
theorem natMin_assoc (a b c : Nat) :
    Nat.min (Nat.min a b) c = Nat.min a (Nat.min b c) := by
  by_cases h1 : a ≤ b <;> by_cases h2 : b ≤ c <;> by_cases h3 : a ≤ c <;>
    simp [natMin_def, h1, h2, h3] <;> omega

/-- A minimum-fold step on a blank line before any content line. -/
theorem minStep_blank_ff (m : Nat) (l : List Char) (hb : isBlankL l = true) :
    minStep (false, false, m) l = (false, false, m) := by
  simp [minStep, hb]

/-- A minimum-fold step on a blank line directly after the first content
line. -/
theorem minStep_blank_tf (m : Nat) (l : List Char) (hb : isBlankL l = true) :
    minStep (true, false, m) l = (true, true, m) := by
  simp [minStep, hb]

/-- A minimum-fold step on a blank line after the second line. -/
theorem minStep_blank_tt (m : Nat) (l : List Char) (hb : isBlankL l = true) :
    minStep (true, true, m) l = (true, true, m) := by
  simp [minStep, hb]

/-- A minimum-fold step on the first content line. -/
theorem minStep_content_ff (m : Nat) (l : List Char) (hb : isBlankL l = false) :
    minStep (false, false, m) l = (true, false, Nat.min m (leadingSpaces l)) := by
  simp [minStep, hb]

/-- A minimum-fold step on a content line directly after the first content
line: the accumulator so far is discarded. -/
theorem minStep_content_tf (m : Nat) (l : List Char) (hb : isBlankL l = false) :
    minStep (true, false, m) l = (true, true, Nat.min usizeMax (leadingSpaces l)) := by
  simp [minStep, hb]

/-- A minimum-fold step on a content line after the second line. -/
theorem minStep_content_tt (m : Nat) (l : List Char) (hb : isBlankL l = false) :
    minStep (true, true, m) l = (true, true, Nat.min m (leadingSpaces l)) := by
  simp [minStep, hb]

/-- The minimum fold after the second line of the first paragraph has been
seen folds the content-line minimum into the accumulator. -/
theorem foldMin_tt (ls : List (List Char)) : ∀ m : Nat, m ≤ usizeMax →
    (ls.foldl minStep (true, true, m)).2.2 = Nat.min m (minContent ls) := by
  induction ls with
  | nil =>
    intro m hm
    rw [List.foldl_nil, show minContent [] = usizeMax from rfl, natMin_left hm]
  | cons l ls ih =>
    intro m hm
    by_cases hb : isBlankL l = true
    · rw [List.foldl_cons, minStep_blank_tt _ _ hb, minContent_blank _ _ hb]
      exact ih m hm
    · have hb' : isBlankL l = false := by simpa using hb
      rw [List.foldl_cons, minStep_content_tt _ _ hb', minContent_content _ _ hb']
      have hle : Nat.min m (leadingSpaces l) ≤ usizeMax :=
        Nat.le_trans (natMin_le_left _ _) hm
      rw [ih _ hle, natMin_assoc]

/-- The minimum fold after the first content line but before a second line:
the accumulator survives only when the next line is blank or absent. -/
theorem foldMin_tf (ls : List (List Char)) (m : Nat) (hm : m ≤ usizeMax) :
    (ls.foldl minStep (true, false, m)).2.2 =
      match ls with
      | [] => m
      | l2 :: ls2 =>
        if isBlankL l2 then Nat.min m (minContent ls2) else minContent (l2 :: ls2) := by
  cases ls with
  | nil => rfl
  | cons l2 ls2 =>
    show (List.foldl minStep (minStep (true, false, m) l2) ls2).2.2 =
      if isBlankL l2 then Nat.min m (minContent ls2) else minContent (l2 :: ls2)
    by_cases hb : isBlankL l2 = true
    · rw [minStep_blank_tf _ _ hb, foldMin_tt ls2 m hm, hb, if_pos rfl]
    · have hb' : isBlankL l2 = false := by simpa using hb
      rw [minStep_content_tf _ _ hb',
        foldMin_tt ls2 (Nat.min usizeMax (leadingSpaces l2)) (natMin_le_left _ _),
        hb', if_neg (by simp), minContent_content _ _ hb',
        natMin_comm usizeMax, natMin_assoc, natMin_right (minContent_le_max ls2)]

/-- The minimum indentation of a line list headed by a blank line equals that
of its tail, as the specification-side minimum also does. -/
theorem specMin_blank (l : List Char) (ls : List (List Char))
    (hb : isBlankL l = true) : specMin (l :: ls) = specMin ls := by
  rw [specMin.eq_def]
  simp [hb]

/-- The specification-side minimum of a line list headed by a content
line. -/
theorem specMin_content (l : List Char) (ls : List (List Char))
    (hb : isBlankL l = false) :
    specMin (l :: ls) =
      match ls with
      | [] => Nat.min (leadingSpaces l) usizeMax
      | l2 :: _ =>
        if isBlankL l2 then Nat.min (leadingSpaces l) (minContent ls)
        else minContent ls := by
  rw [specMin.eq_def]
  simp [hb]

/-- The minimum-indentation fold of unindent computes exactly the minimum
the specification describes: the least leading-space count over content
lines, excluding the first content line exactly when the line directly
after it is itself content. -/
theorem minIndentOf_eq_specMin (ls : List (List Char)) :
    minIndentOf ls = specMin ls := by
  unfold minIndentOf
  induction ls with
  | nil => rfl
  | cons l ls ih =>
    by_cases hb : isBlankL l = true
    · rw [List.foldl_cons, minStep_blank_ff _ _ hb, ih, specMin_blank _ _ hb]
    · have hb' : isBlankL l = false := by simpa using hb
      rw [List.foldl_cons, minStep_content_ff _ _ hb',
        foldMin_tf ls (Nat.min usizeMax (leadingSpaces l)) (natMin_le_left _ _),
        specMin_content _ _ hb']
      cases ls with
      | nil => exact natMin_comm _ _
      | cons l2 ls2 =>
        show (if isBlankL l2 = true then
            Nat.min (Nat.min usizeMax (leadingSpaces l)) (minContent ls2)
          else minContent (l2 :: ls2)) =
          if isBlankL l2 = true then
            Nat.min (leadingSpaces l) (minContent (l2 :: ls2))
          else minContent (l2 :: ls2)
        by_cases hb2 : isBlankL l2 = true
        · rw [if_pos hb2, if_pos hb2, minContent_blank _ _ hb2,
            natMin_comm usizeMax, natMin_assoc, natMin_right (minContent_le_max ls2)]
        · rw [if_neg hb2, if_neg hb2]


/-- C4 amended: unindent agrees everywhere with the specified description
amended in one point, namely that the first line is trimmed of its leading
and trailing whitespace rather than of leading whitespace only. -/
theorem unindent_eq_described (s : List Char) : unindent s = unindentDescribed s := by
  simp only [unindent, unindentDescribed]
  rw [minIndentOf_eq_specMin]

/-- Counterexample to C4: on the single-line input of the letter a followed
by one space, unindent trims the trailing space of the first line, which the
claimed description keeps. -/
theorem unindent_trims_trailing_ws :
    unindent "a ".toList = some "a".toList
    ∧ unindentClaimed "a ".toList = some "a ".toList
    ∧ unindent "a ".toList ≠ unindentClaimed "a ".toList := by
  refine ⟨by decide, by decide, by decide⟩

/-! ## Claim C9: totality of unindent -/

/-- The leading-space count of a line never exceeds its length. -/
theorem leadingSpaces_le (l : List Char) : leadingSpaces l ≤ l.length :=
  (l.takeWhile_sublist _).length_le

/-- The per-line rewrite of unindent succeeds when every content line is at
least as long as the minimum being removed. -/
theorem unindentRest_isSome (mi : Nat) (ls : List (List Char))
    (h : ∀ l ∈ ls, isBlankL l = false → mi ≤ l.length) :
    (unindentRest mi ls).isSome = true := by
  induction ls with
  | nil => rfl
  | cons l ls ih =>
    have ihh : (unindentRest mi ls).isSome = true := by
      apply ih
      intro x hx hc
      exact h x (List.mem_cons.mpr (Or.inr hx)) hc
    unfold unindentRest
    by_cases hb : isBlankL l = true
    · rw [if_pos hb]
      cases hrest : unindentRest mi ls with
      | none => rw [hrest] at ihh; simp at ihh
      | some r => rfl
    · have hb' : isBlankL l = false := by simpa using hb
      rw [if_neg hb]
      have hlen : mi ≤ l.length := h l (List.mem_cons.mpr (Or.inl rfl)) hb'
      rw [if_pos hlen]
      cases hrest : unindentRest mi ls with
      | none => rw [hrest] at ihh; simp at ihh
      | some r => rfl

/-- C9 amended: unindent never aborts on an input whose first line is a
content line; in general the assertion can fail, so the hypothesis on the
first line cannot be dropped. -/
theorem unindent_total_of_first_content (s : List Char)
    (h : firstLineContent s = true) : (unindent s).isSome = true := by
  unfold unindent
  cases hcase : linesAny s with
  | nil => rfl
  | cons l0 rest =>
    have hl0 : isBlankL l0 = false := by
      unfold firstLineContent at h
      rw [hcase] at h
      simpa using h
    have hmin : minIndentOf (l0 :: rest) ≤ minContent rest := by
      rw [minIndentOf_eq_specMin, specMin_content _ _ hl0]
      cases rest with
      | nil => exact natMin_le_right _ _
      | cons l2 ls2 =>
        show (if isBlankL l2 = true then
            Nat.min (leadingSpaces l0) (minContent (l2 :: ls2))
          else minContent (l2 :: ls2)) ≤ minContent (l2 :: ls2)
        by_cases hb2 : isBlankL l2 = true
        · rw [if_pos hb2]
          exact natMin_le_right _ _
        · rw [if_neg hb2]
    have hrest : ∀ l ∈ rest, isBlankL l = false →
        minIndentOf (l0 :: rest) ≤ l.length := by
      intro l hm hc
      exact Nat.le_trans hmin
        (Nat.le_trans (minContent_le rest l hm hc) (leadingSpaces_le l))
    have hsome := unindentRest_isSome (minIndentOf (l0 :: rest)) rest hrest
    cases h2 : unindentRest (minIndentOf (l0 :: rest)) rest with
    | none => rw [h2] at hsome; simp at hsome
    | some r => simp [h2]

/-- Witness for unindent_total_of_first_content at a concrete two-line
input whose first line is content. -/
theorem unindent_total_of_first_content_wit :
    firstLineContent "  a\n b".toList = true
    ∧ (unindent "  a\n b".toList).isSome = true :=
  ⟨by decide, unindent_total_of_first_content _ (by decide)⟩

/-- Counterexample to C9: on the input of a blank first line, an indented
content line, and a deeper content line, the computed minimum exceeds the
length of the second line and unindent aborts. -/
theorem unindent_aborts :
    unindent "\n  a\n    b".toList = none := by decide


/-! ## Claim C1: referential consistency after the stripping passes -/

/-- The strip_hidden ImplStripper on one item: it keeps the item, with its
children folded, exactly when the head passes the side-set guard. -/
theorem shImplItem_eq (stripped : List Nat) (d : ItemData) (cs : List Item) :
    shImplItem stripped (.mk d cs) =
      if implHeadCleanH stripped d = true then some (.mk d (shImplList stripped cs))
      else none := by
  cases hinr : d.inner <;> simp [shImplItem, implHeadCleanH, hinr]
  case ImplItem f t =>
    cases f with
    | ResolvedPath did =>
      cases t with
      | none => by_cases h1 : memId did.node stripped <;> simp [h1]
      | some ty =>
        cases ty with
        | ResolvedPath tdid =>
          by_cases h1 : memId did.node stripped <;>
            by_cases h2 : memId tdid.node stripped <;> simp [h1, h2]
        | UnresolvedTy t => by_cases h1 : memId did.node stripped <;> simp [h1]
    | UnresolvedTy t => simp

/-- The strip_private ImplStripper on one item: it keeps the item, with its
children folded, exactly when the head passes the retained-set guard. -/
theorem pImplItem_eq (retained : List Nat) (d : ItemData) (cs : List Item) :
    pImplItem retained (.mk d cs) =
      if implHeadCleanP retained d = true then some (.mk d (pImplList retained cs))
      else none := by
  cases hinr : d.inner <;> simp [pImplItem, implHeadCleanP, hinr]
  case ImplItem f t =>
    cases t with
    | none => simp
    | some ty =>
      cases ty with
      | ResolvedPath tdid =>
        by_cases h1 : is_local tdid <;> by_cases h2 : memId tdid.node retained <;>
          simp [h1, h2]
      | UnresolvedTy t => simp

mutual

/-- Every tree the strip_hidden ImplStripper keeps is consistent with the
stripped side-set at every impl node. -/
theorem shImpl_clean (stripped : List Nat) (i i' : Item)
    (h : shImplItem stripped i = some i') : implCleanH stripped i' = true := by
  cases i with
  | mk d cs =>
    rw [shImplItem_eq] at h
    by_cases hg : implHeadCleanH stripped d = true
    · rw [if_pos hg] at h
      have h2 : i' = .mk d (shImplList stripped cs) := (Option.some.injEq _ _ ▸ h).symm
      rw [h2, implCleanH, hg, shImpl_cleanL stripped cs]
      rfl
    · rw [if_neg hg] at h
      exact Option.noConfusion h
termination_by structural i

/-- Every forest the strip_hidden ImplStripper produces is consistent with
the stripped side-set at every impl node. -/
theorem shImpl_cleanL (stripped : List Nat) (is : List Item) :
    implCleanHL stripped (shImplList stripped is) = true := by
  cases is with
  | nil => rfl
  | cons i is =>
    rw [shImplList]
    cases hi : shImplItem stripped i with
    | none => exact shImpl_cleanL stripped is
    | some x =>
      rw [implCleanHL, shImpl_clean stripped i x hi, shImpl_cleanL stripped is]
      rfl
termination_by structural is

end

mutual

/-- Every tree the strip_private ImplStripper keeps is consistent with the
retained side-set at every impl node. -/
theorem pImpl_clean (retained : List Nat) (i i' : Item)
    (h : pImplItem retained i = some i') : implCleanP retained i' = true := by
  cases i with
  | mk d cs =>
    rw [pImplItem_eq] at h
    by_cases hg : implHeadCleanP retained d = true
    · rw [if_pos hg] at h
      have h2 : i' = .mk d (pImplList retained cs) := (Option.some.injEq _ _ ▸ h).symm
      rw [h2, implCleanP, hg, pImpl_cleanL retained cs]
      rfl
    · rw [if_neg hg] at h
      exact Option.noConfusion h
termination_by structural i

/-- Every forest the strip_private ImplStripper produces is consistent with
the retained side-set at every impl node. -/
theorem pImpl_cleanL (retained : List Nat) (is : List Item) :
    implCleanPL retained (pImplList retained is) = true := by
  cases is with
  | nil => rfl
  | cons i is =>
    rw [pImplList]
    cases hi : pImplItem retained i with
    | none => exact pImpl_cleanL retained is
    | some x =>
      rw [implCleanPL, pImpl_clean retained i x hi, pImpl_cleanL retained is]
      rfl
termination_by structural is

end

/-- C1 amended: after either stripping pass, every surviving impl node is
consistent with the side-set of the pass: after strip_hidden, no surviving
impl whose target type is a resolved path has its target id, or (when the
trait is also a resolved path) its trait id, in the stripped side-set; after
strip_private, no surviving impl whose trait is a resolved path to a local id
has that id outside the retained side-set.  Presence in the output tree
itself is not guaranteed. -/
theorem strip_refs_sideset (c : Crate) (exported : List Nat) :
    crateCleanH (stripHiddenSet c) (strip_hidden c) = true
    ∧ crateCleanP (stripPrivateRetained exported c) (strip_private exported c) = true := by
  constructor
  · show crateCleanH (shPass1 c).2
      { module := ((shPass1 c).1).bind (shImplItem (shPass1 c).2) } = true
    cases h1 : (shPass1 c).1 with
    | none => rfl
    | some m =>
      show (match shImplItem (shPass1 c).2 m with
        | none => true
        | some m' => implCleanH (shPass1 c).2 m') = true
      cases h2 : shImplItem (shPass1 c).2 m with
      | none => rfl
      | some m' => exact shImpl_clean _ m m' h2
  · show crateCleanP (pPhase1 exported c).2
      { module := ((pPhase1 exported c).1).bind (pImplItem (pPhase1 exported c).2) } = true
    cases h1 : (pPhase1 exported c).1 with
    | none => rfl
    | some m =>
      show (match pImplItem (pPhase1 exported c).2 m with
        | none => true
        | some m' => implCleanP (pPhase1 exported c).2 m') = true
      cases h2 : pImplItem (pPhase1 exported c).2 m with
      | none => rfl
      | some m' => exact pImpl_clean _ m m' h2

/-- Counterexample to C1: the input crate is referentially consistent, but
after strip_hidden the surviving impl still references the locally-defined
resolved trait id 1, whose node the pass removed from the tree. -/
theorem strip_hidden_dangling_trait_ref :
    crateRefsOk c1Crate = true
    ∧ crateRefsOk (strip_hidden c1Crate) = false := by
  refine ⟨by decide, by decide⟩


/-! ## Claim C6: emptiness pruning of strip_private -/

/-- A head with a kind other than module and implementation always satisfies
the amended emptiness condition. -/
theorem emptyHeadOkA_nonmodimpl (d : ItemData) (cs : List Item)
    (h : isModImplKind d.inner = false) : emptyHeadOkA d cs = true := by
  cases hd : d.inner <;> rw [hd] at h <;>
    simp [isModImplKind] at h <;> simp [emptyHeadOkA, hd]

/-- A fastreturn head (trait, trait implementation, struct variant) always
satisfies the amended emptiness condition. -/
theorem privFast_emptyHeadOkA (d : ItemData) (cs : List Item)
    (hf : privFast d = true) : emptyHeadOkA d cs = true := by
  unfold privFast at hf
  cases hd : d.inner <;> rw [hd] at hf
  case TraitItem => simp [emptyHeadOkA, hd]
  case VariantItem b => simp [emptyHeadOkA, hd]
  case ImplItem f t =>
    cases t with
    | none => simp at hf
    | some ty => simp [emptyHeadOkA, hd]
  all_goals simp at hf

/-- A kind that is not module or implementation is in particular not the
module kind. -/
theorem not_module_of_not_modimpl (e : ItemEnum) (h : isModImplKind e = false) :
    (e == ItemEnum.ModuleItem) = false := by
  cases e <;> simp_all [isModImplKind]

/-- A boolean that is not true is false. -/
theorem bool_eq_false {b : Bool} (h : ¬b = true) : b = false := by
  cases b
  · rfl
  · exact absurd rfl h

/-- The early match of the strip_private Stripper answers ReplaceField only
on struct fields. -/
theorem privEarly_replaceField (ex : List Nat) (d : ItemData)
    (he : privEarly ex d = .ReplaceField) : ∃ f, d.inner = .StructFieldItem f := by
  unfold privEarly at he
  cases hd : d.inner <;> simp only [hd] at he
  case StructFieldItem f => exact ⟨f, rfl⟩
  all_goals (repeat' split at he) <;> first
    | exact absurd he (by decide)
    | simp_all

/-- Inversion of the post-recursion tail of the strip_private Stripper on a
kept item: the item is rebuilt with the folded children, a kept module is not
both childless and documentation-free, and a kept impl is not childless. -/
theorem privPost_inv (d : ItemData) (cs' : List Item) (r2 : List Nat)
    (i' : Item) (r' : List Nat) (h : privPost d cs' r2 = (some i', r')) :
    i' = .mk d cs'
    ∧ (d.inner = .ModuleItem →
        (cs'.isEmpty && (doc_value d.attrs).isNone) = false)
    ∧ (∀ f t, d.inner = .ImplItem f t → cs'.isEmpty = false) := by
  unfold privPost at h
  cases hd : d.inner <;> rw [hd] at h
  case ModuleItem =>
    by_cases hc : (cs'.isEmpty && (doc_value d.attrs).isNone) = true
    · rw [if_pos hc] at h
      simp at h
    · rw [if_neg hc] at h
      rw [Prod.mk.injEq] at h
      exact ⟨(Option.some.inj h.1).symm, fun _ => bool_eq_false hc,
        fun f t hi => absurd (hd ▸ hi) (by simp [hd])⟩
  case ImplItem f0 t0 =>
    by_cases hc : cs'.isEmpty = true
    · rw [if_pos hc] at h
      simp at h
    · rw [if_neg hc] at h
      rw [Prod.mk.injEq] at h
      exact ⟨(Option.some.inj h.1).symm, fun hm => absurd (hd ▸ hm) (by simp [hd]),
        fun f t _ => bool_eq_false hc⟩
  all_goals
    rw [Prod.mk.injEq] at h
    exact ⟨(Option.some.inj h.1).symm, fun hm => absurd (hd ▸ hm) (by simp [hd]),
      fun f t hi => absurd (hd ▸ hi) (by simp [hd])⟩

/-- Inversion of phase 1 of strip_private on a kept item: the result is a
replaced private struct field with the original children, a fastreturn item
with the original children, or the recursed item with the post-recursion
emptiness facts. -/
theorem pStripItem_inv (ex r : List Nat) (d : ItemData) (cs : List Item)
    (i' : Item) (r' : List Nat) (h : pStripItem ex r (.mk d cs) = (some i', r')) :
    ((∃ f, d.inner = .StructFieldItem f)
       ∧ i' = .mk { d with inner := .StructFieldItem .HiddenStructField } cs)
    ∨ (privFast d = true ∧ i' = .mk d cs)
    ∨ (privFast d = false ∧ i' = .mk d (pStripList ex r cs).1
        ∧ (d.inner = .ModuleItem →
            ((pStripList ex r cs).1.isEmpty && (doc_value d.attrs).isNone) = false)
        ∧ (∀ f t, d.inner = .ImplItem f t → (pStripList ex r cs).1.isEmpty = false)) := by
  unfold pStripItem at h
  cases he : privEarly ex d <;> rw [he] at h
  case Delete => simp at h
  case ReplaceField =>
    rw [Prod.mk.injEq] at h
    exact Or.inl ⟨privEarly_replaceField ex d he, (Option.some.inj h.1).symm⟩
  case Continue =>
    by_cases hfast : privFast d = true
    · rw [if_pos hfast] at h
      rw [Prod.mk.injEq] at h
      exact Or.inr (Or.inl ⟨hfast, (Option.some.inj h.1).symm⟩)
    · rw [if_neg hfast] at h
      cases hp : pStripList ex r cs with
      | mk cs2 r2 =>
        rw [hp] at h
        obtain ⟨h1, h2, h3⟩ := privPost_inv d cs2 r2 i' r' h
        exact Or.inr (Or.inr ⟨bool_eq_false hfast, h1, h2, h3⟩)


/-- A boolean negation that is true comes from a false boolean. -/
theorem bool_not_true {b : Bool} (h : (!b) = true) : b = false := by
  cases b
  · rfl
  · exact absurd h (by decide)

/-- Conjunction extraction for boolean conjunctions that are true. -/
theorem bool_and_true {a b : Bool} (h : (a && b) = true) : a = true ∧ b = true := by
  cases a <;> cases b <;> simp_all

/-- Disjunction extraction for boolean disjunctions that are true. -/
theorem bool_or_true {a b : Bool} (h : (a || b) = true) : a = true ∨ b = true := by
  cases a <;> cases b <;> simp_all

/-- In a well-formed forest whose members all have kinds other than module
and implementation, no subtree contains a module or implementation node. -/
theorem wfL_noMIL : ∀ (cs : List Item), wfList cs = true →
    cs.all (fun c => !isModImplKind c.data.inner) = true → noMIL cs = true
  | [], _, _ => rfl
  | (Item.mk dc csc) :: cs', hw, hall => by
    rw [wfList] at hw
    rw [List.all_cons] at hall
    obtain ⟨hw1, hw2⟩ := bool_and_true hw
    obtain ⟨ha1, ha2⟩ := bool_and_true hall
    have hdc : isModImplKind dc.inner = false := bool_not_true ha1
    rw [wfItem] at hw1
    obtain ⟨hcs1, hcs2⟩ := bool_and_true hw1
    have hcsall : csc.all (fun c => !isModImplKind c.data.inner) = true := by
      rcases bool_or_true hcs1 with h | h
      · rw [not_module_of_not_modimpl dc.inner hdc] at h
        exact absurd h (by decide)
      · exact h
    have h1 : noMI (Item.mk dc csc) = true := by
      rw [noMI, hdc, wfL_noMIL csc hcs2 hcsall]
      rfl
    rw [noMIL, h1, wfL_noMIL cs' hw2 ha2]
    rfl

mutual

/-- A tree without module or implementation nodes trivially satisfies the
amended emptiness condition. -/
theorem noMI_emptA : ∀ (i : Item), noMI i = true → emptinessOkA i = true
  | .mk d cs, h => by
    rw [noMI] at h
    obtain ⟨h1, h2⟩ := bool_and_true h
    rw [emptinessOkA, emptyHeadOkA_nonmodimpl d cs (bool_not_true h1),
      noMIL_emptAL cs h2]
    rfl
termination_by structural i => i

/-- A forest without module or implementation nodes trivially satisfies the
amended emptiness condition. -/
theorem noMIL_emptAL : ∀ (is : List Item), noMIL is = true → emptinessOkAL is = true
  | [], _ => rfl
  | i :: is, h => by
    rw [noMIL] at h
    obtain ⟨h1, h2⟩ := bool_and_true h
    rw [emptinessOkAL, noMI_emptA i h1, noMIL_emptAL is h2]
    rfl
termination_by structural is => is

end

mutual

/-- Phase 1 of strip_private introduces no module or implementation node
into a tree that has none. -/
theorem pStrip_noMI : ∀ (ex r : List Nat) (i i' : Item) (r' : List Nat),
    pStripItem ex r i = (some i', r') → noMI i = true → noMI i' = true
  | ex, r, .mk d cs, i', r', h, hn => by
    rw [noMI] at hn
    obtain ⟨hh, hcs⟩ := bool_and_true hn
    rcases pStripItem_inv ex r d cs i' r' h with ⟨⟨f, hf⟩, hi⟩ | ⟨hf, hi⟩ | ⟨hf, hi, _, _⟩
    · subst hi
      rw [noMI]
      rw [show isModImplKind (ItemEnum.StructFieldItem SField.HiddenStructField) = false
        from rfl, hcs]
      rfl
    · subst hi
      rw [noMI, hh, hcs]
      rfl
    · subst hi
      rw [noMI, hh, pStripL_noMI ex r cs hcs]
      rfl
termination_by structural _ _ i => i

/-- Phase 1 of strip_private introduces no module or implementation node
into a forest that has none. -/
theorem pStripL_noMI : ∀ (ex r : List Nat) (is : List Item),
    noMIL is = true → noMIL (pStripList ex r is).1 = true
  | _, _, [], _ => rfl
  | ex, r, i :: is, hn => by
    rw [noMIL] at hn
    obtain ⟨h1, h2⟩ := bool_and_true hn
    rw [pStripList]
    cases hp : pStripItem ex r i with
    | mk oi r1 =>
      cases oi with
      | none => exact pStripL_noMI ex r1 is h2
      | some x =>
        show noMIL (x :: (pStripList ex r1 is).1) = true
        rw [noMIL, pStrip_noMI ex r i x r1 hp h1, pStripL_noMI ex r1 is h2]
        rfl
termination_by structural _ _ is => is

end

/-- The children of a well-formed item whose kind is not the module kind
form a forest without module or implementation nodes. -/
theorem wf_children_noMIL (d : ItemData) (cs : List Item)
    (hw1 : (d.inner == ItemEnum.ModuleItem
      || cs.all fun c => !isModImplKind c.data.inner) = true)
    (hw2 : wfList cs = true)
    (hnm : (d.inner == ItemEnum.ModuleItem) = false) : noMIL cs = true := by
  rcases bool_or_true hw1 with hmod | hok
  · rw [hnm] at hmod
    exact absurd hmod (by decide)
  · exact wfL_noMIL cs hw2 hok

mutual

/-- Phase 1 of strip_private on a well-formed kept tree leaves no module
both childless and documentation-free and no childless non-trait
implementation. -/
theorem pStrip_prunedA : ∀ (ex r : List Nat) (i i' : Item) (r' : List Nat),
    pStripItem ex r i = (some i', r') → wfItem i = true → emptinessOkA i' = true
  | ex, r, .mk d cs, i', r', h, hw => by
    rw [wfItem] at hw
    obtain ⟨hw1, hw2⟩ := bool_and_true hw
    rcases pStripItem_inv ex r d cs i' r' h with ⟨⟨f, hf⟩, hi⟩ | ⟨hf, hi⟩ | ⟨hf, hi, hm, himp⟩
    · subst hi
      have hnm : (d.inner == ItemEnum.ModuleItem) = false := by simp [hf]
      rw [emptinessOkA,
        emptyHeadOkA_nonmodimpl _ _ (show isModImplKind
          (ItemEnum.StructFieldItem SField.HiddenStructField) = false from rfl),
        noMIL_emptAL cs (wf_children_noMIL d cs hw1 hw2 hnm)]
      rfl
    · subst hi
      have hnm : (d.inner == ItemEnum.ModuleItem) = false := by
        cases hd : d.inner
        case ModuleItem => simp [privFast, hd] at hf
        all_goals simp [hd]
      rw [emptinessOkA, privFast_emptyHeadOkA d cs hf,
        noMIL_emptAL cs (wf_children_noMIL d cs hw1 hw2 hnm)]
      rfl
    · subst hi
      have hch : emptinessOkAL (pStripList ex r cs).1 = true := pStripL_prunedA ex r cs hw2
      have hhead : emptyHeadOkA d (pStripList ex r cs).1 = true := by
        cases hd : d.inner
        case ModuleItem =>
          unfold emptyHeadOkA
          rw [hd]
          rw [hm hd]
          rfl
        case ImplItem f t =>
          cases t with
          | none =>
            unfold emptyHeadOkA
            rw [hd]
            rw [himp f none hd]
            rfl
          | some ty =>
            unfold emptyHeadOkA
            rw [hd]
        all_goals (unfold emptyHeadOkA; rw [hd])
      rw [emptinessOkA, hhead, hch]
      rfl
termination_by structural _ _ i => i

/-- Phase 1 of strip_private on a well-formed forest produces a forest
satisfying the amended emptiness condition. -/
theorem pStripL_prunedA : ∀ (ex r : List Nat) (is : List Item),
    wfList is = true → emptinessOkAL (pStripList ex r is).1 = true
  | _, _, [], _ => rfl
  | ex, r, i :: is, hw => by
    rw [wfList] at hw
    obtain ⟨h1, h2⟩ := bool_and_true hw
    rw [pStripList]
    cases hp : pStripItem ex r i with
    | mk oi r1 =>
      cases oi with
      | none => exact pStripL_prunedA ex r1 is h2
      | some x =>
        show emptinessOkAL (x :: (pStripList ex r1 is).1) = true
        rw [emptinessOkAL, pStrip_prunedA ex r i x r1 hp h1, pStripL_prunedA ex r1 is h2]
        rfl
termination_by structural _ _ is => is

end


/-- C6 amended: after phase 1 of strip_private, a well-formed input tree
contains no module with zero children and no documentation text, and no
non-trait implementation with zero members; implementations of traits are
retained outright and escape the emptiness prune, and phase 2 can empty a
module again. -/
theorem strip_private_phase1_emptiness (exported : List Nat) (c : Crate)
    (hw : crateWf c = true) :
    crateEmptinessOkA { module := (pPhase1 exported c).1 } = true := by
  unfold pPhase1
  cases hm : c.module with
  | none => rfl
  | some m =>
    unfold crateWf at hw
    rw [hm] at hw
    show crateEmptinessOkA { module := (pStripItem exported [] m).1 } = true
    cases hp : pStripItem exported [] m with
    | mk o r =>
      cases o with
      | none => rfl
      | some m' =>
        show emptinessOkA m' = true
        exact pStrip_prunedA exported [] m m' r hp hw

/-- Witness for strip_private_phase1_emptiness at a concrete well-formed
crate of one documented module. -/
theorem strip_private_phase1_emptiness_wit :
    crateWf { module := some (.mk ⟨⟨0, 0⟩, some .Public,
      [.NameValue "doc" "x"], false, .ModuleItem⟩ []) } = true
    ∧ crateEmptinessOkA { module := (pPhase1 []
        { module := some (.mk ⟨⟨0, 0⟩, some .Public,
          [.NameValue "doc" "x"], false, .ModuleItem⟩ []) }).1 } = true :=
  ⟨by decide, strip_private_phase1_emptiness [] _ (by decide)⟩

/-- Counterexample to C6: after the full strip_private, the well-formed
crate c6Crate still contains a memberless trait implementation (id 2,
retained outright by the fastreturn) and a module (id 1) with zero children
and no documentation text, emptied by phase 2. -/
theorem strip_private_keeps_empty :
    crateWf c6Crate = true
    ∧ crateEmptinessOk (strip_private [] c6Crate) = false := by
  refine ⟨by decide, by decide⟩


/-! ## Claim C7: idempotence of strip_hidden

The proof goes through a chain of facts about the two sub-passes: the first
sub-pass never reads the side-set it threads (only appends to it), its
output visits only placeholder hidden nodes, rerunning it on such a tree is
the identity and records exactly the hidden ids of the tree, those ids only
shrink under both sub-passes, and the second sub-pass is the identity on a
tree already consistent with the side-set. -/

mutual

/-- The first sub-pass of strip_hidden never reads its side-set: running it
from any starting set produces the same tree and appends the same new ids. -/
theorem shFold_state : ∀ (st : List Nat) (i : Item) (o : Option Item) (s : List Nat),
    shFoldItem [] i = (o, s) → shFoldItem st i = (o, s ++ st)
  | st, .mk d cs, o, s, h => by
    by_cases hh : d.isHiddenFromDoc = true
    · cases hd : d.inner <;>
        simp only [shFoldItem, hh, hd, if_true, insertId] at h ⊢ <;>
        rw [Prod.mk.injEq] at h ⊢ <;>
        exact ⟨h.1, by rw [← h.2]; rfl⟩
    · have hh' : d.isHiddenFromDoc = false := bool_eq_false hh
      simp only [shFoldItem, hh', Bool.false_eq_true, if_false] at h ⊢
      cases hq : shFoldList [] cs with
      | mk cs0 s0 =>
        rw [hq] at h
        rw [shFoldList_state st cs cs0 s0 hq]
        rw [Prod.mk.injEq] at h ⊢
        exact ⟨h.1, by rw [← h.2]⟩
termination_by structural _ i => i

/-- The first sub-pass of strip_hidden never reads its side-set, forest
version. -/
theorem shFoldList_state : ∀ (st : List Nat) (is : List Item) (os : List Item)
    (ss : List Nat), shFoldList [] is = (os, ss) → shFoldList st is = (os, ss ++ st)
  | st, [], os, ss, h => by
    simp only [shFoldList] at h ⊢
    rw [Prod.mk.injEq] at h ⊢
    exact ⟨h.1, by rw [← h.2]; rfl⟩
  | st, i :: is, os, ss, h => by
    cases hq1 : shFoldItem [] i with
    | mk o1 s1 =>
      cases hq0 : shFoldList [] is with
      | mk is0 s0 =>
        have h1st := shFold_state st i o1 s1 hq1
        have h2s1 := shFoldList_state s1 is is0 s0 hq0
        have h2s1st := shFoldList_state (s1 ++ st) is is0 s0 hq0
        simp only [shFoldList, hq1, h2s1] at h
        simp only [shFoldList, h1st, h2s1st]
        rw [Prod.mk.injEq] at h ⊢
        exact ⟨h.1, by rw [← h.2, List.append_assoc]⟩
termination_by structural _ is => is

end


/-- Membership in an appended id list. -/
theorem memId_append (n : Nat) (a b : List Nat) :
    memId n (a ++ b) = (memId n a || memId n b) := by
  induction a with
  | nil => rfl
  | cons x xs ih =>
    show ((n == x) || memId n (xs ++ b)) = (((n == x) || memId n xs) || memId n b)
    rw [ih, Bool.or_assoc]

mutual

/-- The ids the first sub-pass of strip_hidden records on a tree are, up to
membership, exactly the hIds of the tree. -/
theorem shFold_ids : ∀ (i : Item) (o : Option Item) (s : List Nat),
    shFoldItem [] i = (o, s) → ∀ n, memId n s = memId n (hIds i)
  | .mk d cs, o, s, h, n => by
    by_cases hh : d.isHiddenFromDoc = true
    · have hs : s = [d.def_id.node] := by
        cases hd : d.inner <;> simp only [shFoldItem, hh, hd, if_true, insertId] at h <;>
          rw [Prod.mk.injEq] at h <;> exact h.2.symm
      rw [hs, hIds, hh, if_pos rfl]
    · have hh' : d.isHiddenFromDoc = false := bool_eq_false hh
      simp only [shFoldItem, hh', Bool.false_eq_true, if_false] at h
      cases hq : shFoldList [] cs with
      | mk cs0 s0 =>
        rw [hq] at h
        rw [Prod.mk.injEq] at h
        rw [← h.2]
        rw [hIds, hh']
        simp only [Bool.false_eq_true, if_false]
        exact shFoldList_ids cs cs0 s0 hq n
termination_by structural i => i

/-- The ids the first sub-pass of strip_hidden records on a forest are, up
to membership, exactly the hIds of the forest. -/
theorem shFoldList_ids : ∀ (is : List Item) (os : List Item) (ss : List Nat),
    shFoldList [] is = (os, ss) → ∀ n, memId n ss = memId n (hIdsL is)
  | [], os, ss, h, n => by
    rw [shFoldList, Prod.mk.injEq] at h
    rw [← h.2]
    rfl
  | i :: is, os, ss, h, n => by
    cases hq1 : shFoldItem [] i with
    | mk o1 s1 =>
      cases hq0 : shFoldList [] is with
      | mk is0 s0 =>
        have h2s1 := shFoldList_state s1 is is0 s0 hq0
        simp only [shFoldList, hq1, h2s1] at h
        rw [Prod.mk.injEq] at h
        rw [← h.2, hIdsL, memId_append, memId_append]
        rw [shFold_ids i o1 s1 hq1 n, shFoldList_ids is is0 s0 hq0 n, Bool.or_comm]
termination_by structural is => is

end


mutual

/-- Every tree the first sub-pass of strip_hidden keeps is fixed for it:
each hidden node it will visit again is a placeholder struct field. -/
theorem shFold_fixed : ∀ (i : Item) (i' : Item) (s : List Nat),
    shFoldItem [] i = (some i', s) → p1Fixed i' = true
  | .mk d cs, i', s, h => by
    by_cases hh : d.isHiddenFromDoc = true
    · cases hd : d.inner <;> simp only [shFoldItem, hh, hd, if_true, insertId] at h <;>
        rw [Prod.mk.injEq] at h
      all_goals
        first
        | exact Option.noConfusion h.1
        | (rw [← (Option.some.inj h.1)]; rw [p1Fixed]; simp [hh])
    · have hh' : d.isHiddenFromDoc = false := bool_eq_false hh
      simp only [shFoldItem, hh', Bool.false_eq_true, if_false] at h
      cases hq : shFoldList [] cs with
      | mk cs0 s0 =>
        rw [hq] at h
        rw [Prod.mk.injEq] at h
        rw [← (Option.some.inj h.1)]
        rw [p1Fixed, hh']
        simp only [Bool.false_eq_true, if_false]
        exact shFoldList_fixed cs cs0 s0 hq
termination_by structural i => i

/-- Every forest the first sub-pass of strip_hidden produces is fixed for
it. -/
theorem shFoldList_fixed : ∀ (is : List Item) (os : List Item) (ss : List Nat),
    shFoldList [] is = (os, ss) → p1FixedL os = true
  | [], os, ss, h => by
    rw [shFoldList, Prod.mk.injEq] at h
    rw [← h.1]
    rfl
  | i :: is, os, ss, h => by
    cases hq1 : shFoldItem [] i with
    | mk o1 s1 =>
      cases hq0 : shFoldList [] is with
      | mk is0 s0 =>
        have h2s1 := shFoldList_state s1 is is0 s0 hq0
        simp only [shFoldList, hq1, h2s1] at h
        rw [Prod.mk.injEq] at h
        rw [← h.1]
        cases o1 with
        | none => exact shFoldList_fixed is is0 s0 hq0
        | some x =>
          show p1FixedL (x :: is0) = true
          rw [p1FixedL, shFold_fixed i x s1 hq1, shFoldList_fixed is is0 s0 hq0]
          rfl
termination_by structural is => is

end

mutual

/-- On a tree fixed for it, the first sub-pass of strip_hidden keeps the
tree unchanged. -/
theorem shFold_fixed_id : ∀ (i : Item), p1Fixed i = true → (shFoldItem [] i).1 = some i
  | .mk ⟨did, vis, attrs, hid, inn⟩ cs, hp => by
    cases hid with
    | true =>
      simp only [p1Fixed, if_true] at hp
      have hinn : inn = .StructFieldItem .HiddenStructField := by simpa using hp
      subst hinn
      rfl
    | false =>
      simp only [p1Fixed, Bool.false_eq_true, if_false] at hp
      show some (Item.mk ⟨did, vis, attrs, false, inn⟩ (shFoldList [] cs).1) =
        some (Item.mk ⟨did, vis, attrs, false, inn⟩ cs)
      rw [shFoldList_fixed_id cs hp]
termination_by structural i => i

/-- On a forest fixed for it, the first sub-pass of strip_hidden keeps the
forest unchanged. -/
theorem shFoldList_fixed_id : ∀ (is : List Item), p1FixedL is = true →
    (shFoldList [] is).1 = is
  | [], _ => rfl
  | i :: is, hp => by
    rw [p1FixedL] at hp
    obtain ⟨h1, h2⟩ := bool_and_true hp
    have hi := shFold_fixed_id i h1
    have his := shFoldList_fixed_id is h2
    cases hq1 : shFoldItem [] i with
    | mk o1 s1 =>
      have ho1 : o1 = some i := by rw [hq1] at hi; exact hi
      subst ho1
      cases hq0 : shFoldList [] is with
      | mk is0 s0 =>
        have his0 : is0 = is := by rw [hq0] at his; exact his
        have h2s1 := shFoldList_state s1 is is0 s0 hq0
        simp only [shFoldList, hq1, h2s1, his0]
termination_by structural is => is

end

mutual

/-- The hidden ids of a tree kept by the first sub-pass of strip_hidden are
among the hidden ids of the input tree. -/
theorem shFold_hIds : ∀ (i : Item) (i' : Item) (s : List Nat) (n : Nat),
    shFoldItem [] i = (some i', s) → memId n (hIds i') = true → memId n (hIds i) = true
  | .mk d cs, i', s, n, h, hm => by
    by_cases hh : d.isHiddenFromDoc = true
    · cases hd : d.inner <;> simp only [shFoldItem, hh, hd, if_true, insertId] at h <;>
        rw [Prod.mk.injEq] at h
      all_goals
        first
        | exact Option.noConfusion h.1
        | (rw [← (Option.some.inj h.1)] at hm
           rw [hIds, hh, if_pos rfl]
           simpa [hIds, hh] using hm)
    · have hh' : d.isHiddenFromDoc = false := bool_eq_false hh
      simp only [shFoldItem, hh', Bool.false_eq_true, if_false] at h
      cases hq : shFoldList [] cs with
      | mk cs0 s0 =>
        rw [hq] at h
        rw [Prod.mk.injEq] at h
        rw [← (Option.some.inj h.1)] at hm
        rw [hIds, hh'] at hm ⊢
        simp only [Bool.false_eq_true, if_false] at hm ⊢
        exact shFoldList_hIds cs cs0 s0 n hq hm
termination_by structural i => i

/-- The hidden ids of a forest produced by the first sub-pass of
strip_hidden are among the hidden ids of the input forest. -/
theorem shFoldList_hIds : ∀ (is : List Item) (os : List Item) (ss : List Nat) (n : Nat),
    shFoldList [] is = (os, ss) → memId n (hIdsL os) = true → memId n (hIdsL is) = true
  | [], os, ss, n, h, hm => by
    rw [shFoldList, Prod.mk.injEq] at h
    rw [← h.1] at hm
    exact hm
  | i :: is, os, ss, n, h, hm => by
    cases hq1 : shFoldItem [] i with
    | mk o1 s1 =>
      cases hq0 : shFoldList [] is with
      | mk is0 s0 =>
        have h2s1 := shFoldList_state s1 is is0 s0 hq0
        simp only [shFoldList, hq1, h2s1] at h
        rw [Prod.mk.injEq] at h
        rw [← h.1] at hm
        rw [hIdsL, memId_append]
        cases o1 with
        | none =>
          rw [shFoldList_hIds is is0 s0 n hq0 hm]
          exact Bool.or_true _
        | some x =>
          rw [hIdsL, memId_append] at hm
          rcases bool_or_true hm with hx | hxs
          · rw [shFold_hIds i x s1 n hq1 hx]
            rfl
          · rw [shFoldList_hIds is is0 s0 n hq0 hxs]
            exact Bool.or_true _
termination_by structural is => is

end


mutual

/-- The second sub-pass of strip_hidden preserves fixedness for the first
sub-pass. -/
theorem shImpl_fixed : ∀ (st : List Nat) (i i' : Item),
    shImplItem st i = some i' → p1Fixed i = true → p1Fixed i' = true
  | st, .mk d cs, i', h, hp => by
    rw [shImplItem_eq] at h
    by_cases hg : implHeadCleanH st d = true
    · rw [if_pos hg] at h
      rw [← (Option.some.inj h)]
      by_cases hh : d.isHiddenFromDoc = true
      · rw [p1Fixed, hh, if_pos rfl] at hp ⊢
        exact hp
      · have hh' : d.isHiddenFromDoc = false := bool_eq_false hh
        rw [p1Fixed, hh'] at hp ⊢
        simp only [Bool.false_eq_true, if_false] at hp ⊢
        exact shImplList_fixed st cs hp
    · rw [if_neg hg] at h
      exact Option.noConfusion h
termination_by structural _ i => i

/-- The second sub-pass of strip_hidden preserves fixedness over forests. -/
theorem shImplList_fixed : ∀ (st : List Nat) (is : List Item),
    p1FixedL is = true → p1FixedL (shImplList st is) = true
  | _, [], _ => rfl
  | st, i :: is, hp => by
    rw [p1FixedL] at hp
    obtain ⟨h1, h2⟩ := bool_and_true hp
    rw [shImplList]
    cases hi : shImplItem st i with
    | none => exact shImplList_fixed st is h2
    | some x =>
      rw [p1FixedL, shImpl_fixed st i x hi h1, shImplList_fixed st is h2]
      rfl
termination_by structural _ is => is

end

mutual

/-- The hidden ids of a tree kept by the second sub-pass of strip_hidden
are among the hidden ids of the input tree. -/
theorem shImpl_hIds : ∀ (st : List Nat) (i i' : Item) (n : Nat),
    shImplItem st i = some i' → memId n (hIds i') = true → memId n (hIds i) = true
  | st, .mk d cs, i', n, h, hm => by
    rw [shImplItem_eq] at h
    by_cases hg : implHeadCleanH st d = true
    · rw [if_pos hg] at h
      rw [← (Option.some.inj h)] at hm
      by_cases hh : d.isHiddenFromDoc = true
      · rw [hIds, hh, if_pos rfl] at hm ⊢
        exact hm
      · have hh' : d.isHiddenFromDoc = false := bool_eq_false hh
        rw [hIds, hh'] at hm ⊢
        simp only [Bool.false_eq_true, if_false] at hm ⊢
        exact shImplList_hIds st cs n hm
    · rw [if_neg hg] at h
      exact Option.noConfusion h
termination_by structural _ i => i

/-- The hidden ids of a forest produced by the second sub-pass of
strip_hidden are among the hidden ids of the input forest. -/
theorem shImplList_hIds : ∀ (st : List Nat) (is : List Item) (n : Nat),
    memId n (hIdsL (shImplList st is)) = true → memId n (hIdsL is) = true
  | _, [], _, hm => hm
  | st, i :: is, n, hm => by
    rw [shImplList] at hm
    rw [hIdsL, memId_append]
    cases hi : shImplItem st i with
    | none =>
      rw [hi] at hm
      rw [shImplList_hIds st is n hm]
      exact Bool.or_true _
    | some x =>
      rw [hi] at hm
      rw [hIdsL, memId_append] at hm
      rcases bool_or_true hm with hx | hxs
      · rw [shImpl_hIds st i x n hi hx]
        rfl
      · rw [shImplList_hIds st is n hxs]
        exact Bool.or_true _
termination_by structural _ is => is

end

mutual

/-- The second sub-pass of strip_hidden is the identity on a tree already
consistent with the side-set. -/
theorem shImpl_clean_id : ∀ (st : List Nat) (i : Item),
    implCleanH st i = true → shImplItem st i = some i
  | st, .mk d cs, hc => by
    rw [implCleanH] at hc
    obtain ⟨hh, hcs⟩ := bool_and_true hc
    rw [shImplItem_eq, if_pos hh, shImplList_clean_id st cs hcs]
termination_by structural _ i => i

/-- The second sub-pass of strip_hidden is the identity on a forest already
consistent with the side-set. -/
theorem shImplList_clean_id : ∀ (st : List Nat) (is : List Item),
    implCleanHL st is = true → shImplList st is = is
  | _, [], _ => rfl
  | st, i :: is, hc => by
    rw [implCleanHL] at hc
    obtain ⟨h1, h2⟩ := bool_and_true hc
    rw [shImplList, shImpl_clean_id st i h1, shImplList_clean_id st is h2]
termination_by structural _ is => is

end

/-- Side-set consistency of an impl head is antitone in the side-set. -/
theorem implHeadCleanH_mono (s1 s2 : List Nat) (d : ItemData)
    (hsub : ∀ n, memId n s2 = true → memId n s1 = true)
    (h : implHeadCleanH s1 d = true) : implHeadCleanH s2 d = true := by
  unfold implHeadCleanH at h ⊢
  cases hd : d.inner <;> (rw [hd] at h; try rfl)
  case ImplItem f t =>
    cases f with
    | ResolvedPath did =>
      have hmem : ∀ m : Nat, (!memId m s1) = true → memId m s2 = false := by
        intro m h1
        cases hv : memId m s2 with
        | false => rfl
        | true =>
          have hv1 := hsub _ hv
          rw [bool_not_true h1] at hv1
          exact absurd hv1 (by decide)
      cases t with
      | none =>
        have h' : (!memId did.node s1 && true) = true := h
        show (!memId did.node s2 && true) = true
        obtain ⟨h1, h2⟩ := bool_and_true h'
        rw [hmem _ h1]
        rfl
      | some ty =>
        cases ty with
        | ResolvedPath tdid =>
          have h' : (!memId did.node s1 && !memId tdid.node s1) = true := h
          show (!memId did.node s2 && !memId tdid.node s2) = true
          obtain ⟨h1, h2⟩ := bool_and_true h'
          rw [hmem _ h1, hmem _ h2]
          rfl
        | UnresolvedTy tg =>
          have h' : (!memId did.node s1 && true) = true := h
          show (!memId did.node s2 && true) = true
          obtain ⟨h1, h2⟩ := bool_and_true h'
          rw [hmem _ h1]
          rfl
    | UnresolvedTy tg => rfl

mutual

/-- Side-set consistency of a tree is antitone in the side-set. -/
theorem implCleanH_mono : ∀ (s1 s2 : List Nat) (i : Item),
    (∀ n, memId n s2 = true → memId n s1 = true) →
    implCleanH s1 i = true → implCleanH s2 i = true
  | s1, s2, .mk d cs, hsub, h => by
    rw [implCleanH] at h ⊢
    obtain ⟨h1, h2⟩ := bool_and_true h
    rw [implHeadCleanH_mono s1 s2 d hsub h1, implCleanHL_mono s1 s2 cs hsub h2]
    rfl
termination_by structural _ _ i => i

/-- Side-set consistency of a forest is antitone in the side-set. -/
theorem implCleanHL_mono : ∀ (s1 s2 : List Nat) (is : List Item),
    (∀ n, memId n s2 = true → memId n s1 = true) →
    implCleanHL s1 is = true → implCleanHL s2 is = true
  | _, _, [], _, _ => rfl
  | s1, s2, i :: is, hsub, h => by
    rw [implCleanHL] at h ⊢
    obtain ⟨h1, h2⟩ := bool_and_true h
    rw [implCleanH_mono s1 s2 i hsub h1, implCleanHL_mono s1 s2 is hsub h2]
    rfl
termination_by structural _ _ is => is

end


/-- C7: strip_hidden is idempotent: running the hidden-item stripping pass
(both sub-passes) twice yields the same crate as running it once. -/
theorem strip_hidden_idem (c : Crate) : strip_hidden (strip_hidden c) = strip_hidden c := by
  cases hm : c.module with
  | none =>
    have e1 : strip_hidden c = Crate.mk none := by
      show Crate.mk ((shPass1 c).1.bind (shImplItem (shPass1 c).2)) = Crate.mk none
      have hp : shPass1 c = (none, []) := by
        unfold shPass1
        rw [hm]
      rw [hp]
      rfl
    rw [e1]
    rfl
  | some t0 =>
    have hp0 : shPass1 c = shFoldItem [] t0 := by
      unfold shPass1
      rw [hm]
    cases hp1 : shFoldItem [] t0 with
    | mk o1 s1 =>
      have e2 : strip_hidden c = Crate.mk (o1.bind (shImplItem s1)) := by
        show Crate.mk ((shPass1 c).1.bind (shImplItem (shPass1 c).2)) =
          Crate.mk (o1.bind (shImplItem s1))
        rw [hp0, hp1]
      cases o1 with
      | none =>
        rw [e2]
        rfl
      | some t1 =>
        cases hp2 : shImplItem s1 t1 with
        | none =>
          rw [e2, show (some t1).bind (shImplItem s1) = shImplItem s1 t1 from rfl, hp2]
          rfl
        | some t2 =>
          have e3 : strip_hidden c = Crate.mk (some t2) := by
            rw [e2, show (some t1).bind (shImplItem s1) = shImplItem s1 t1 from rfl, hp2]
          have hfix1 : p1Fixed t1 = true := shFold_fixed t0 t1 s1 hp1
          have hfix2 : p1Fixed t2 = true := shImpl_fixed s1 t1 t2 hp2 hfix1
          have hid2 : (shFoldItem [] t2).1 = some t2 := shFold_fixed_id t2 hfix2
          cases hq : shFoldItem [] t2 with
          | mk o2 S2 =>
            have ho2 : o2 = some t2 := by
              rw [hq] at hid2
              exact hid2
            subst ho2
            have hclean1 : implCleanH s1 t2 = true := shImpl_clean s1 t1 t2 hp2
            have hsub : ∀ n, memId n S2 = true → memId n s1 = true := by
              intro n hn
              have hA : memId n (hIds t2) = true := by
                rw [← shFold_ids t2 (some t2) S2 hq n]
                exact hn
              have hB : memId n (hIds t1) = true := shImpl_hIds s1 t1 t2 n hp2 hA
              have hC : memId n (hIds t0) = true := shFold_hIds t0 t1 s1 n hp1 hB
              rw [shFold_ids t0 (some t1) s1 hp1 n]
              exact hC
            have hcleanS2 : implCleanH S2 t2 = true := implCleanH_mono s1 S2 t2 hsub hclean1
            have hfinal : shImplItem S2 t2 = some t2 := shImpl_clean_id S2 t2 hcleanS2
            have e4 : strip_hidden (Crate.mk (some t2)) = Crate.mk (some t2) := by
              have hp' : shPass1 (Crate.mk (some t2)) = (some t2, S2) := by
                show shFoldItem [] t2 = (some t2, S2)
                rw [hq]
              show Crate.mk ((shPass1 (Crate.mk (some t2))).1.bind
                (shImplItem (shPass1 (Crate.mk (some t2))).2)) = Crate.mk (some t2)
              rw [hp', show (some t2).bind (shImplItem S2) = shImplItem S2 t2 from rfl, hfinal]
            rw [e3, e4]

end Rustdoc
